import Mathlib

/-!
Verification of the nipsi non-interactive private set intersection library.

This file gives a shallow embedding of the cryptographic core of the
library (modules nipsi/twoclient.py and nipsi/multiclient.py) and proves
or refutes the frozen specification claims about it.

Modelling conventions, used consistently below:

* Byte strings are lists of naturals (each entry intended to be < 256).
* The prime-order elliptic-curve subgroup (charm ECGroup over prime256v1)
  is cyclic of prime order q.  A group element is represented by its
  discrete logarithm with respect to the fixed generator, i.e. by an
  element of ZMod q written additively: point multiplication becomes
  addition, exponentiation by a scalar becomes scalar multiplication and
  the identity element becomes 0.  Scalars (charm ZR elements) are
  elements of ZMod q with their ring structure.  Serialization of group
  elements and scalars is canonical and injective in charm, so it is
  modelled as the identity.
* AES, SHA-256, MurmurHash3 and the hash-to-point of the curve are
  external primitives; they are modelled as abstract function parameters
  (for AES-CBC the per-block cipher, for the others the full function).
* AES-GCM is modelled symbolically as a perfectly correct and perfectly
  authentic AEAD: a ciphertext records the key, the nonce and the
  message, and decryption succeeds exactly when the key and nonce match.
* Randomness (os.urandom, group.random) is modelled by explicit stream
  parameters consumed at the same program points as in the source.
* Python sets are modelled as lists without duplicates (set outputs are
  deduplicated with List.dedup); Python dicts are association lists in
  insertion order, looked up with the semantics of a Python dict
  (the last write to a key wins).
-/

/-- Byte strings: lists of naturals, each entry intended to be below 256. -/
abbrev Bytes : Type := List Nat

/-- Big-endian encoding of a natural in a fixed number of bytes,
modelling Python int.to_bytes(len, big-endian). -/
def natToBytesBE (len n : ℕ) : Bytes :=
  (List.range len).map (fun i => n / 256 ^ (len - 1 - i) % 256)

/-- Symbolic AEAD ciphertext (AES-GCM model): records key, nonce and message. -/
structure AeadCt (M : Type) where
  key : Bytes
  nonce : Bytes
  msg : M
deriving DecidableEq

/-- Symbolic AES-GCM encryption. -/
def aeadEncrypt {M : Type} (key nonce : Bytes) (m : M) : AeadCt M :=
  ⟨key, nonce, m⟩

/-- Symbolic AES-GCM decryption: succeeds exactly when key and nonce match
(an authentication failure, InvalidTag in the source, is modelled as none). -/
def aeadDecrypt {M : Type} (key nonce : Bytes) (c : AeadCt M) : Option M :=
  if c.key = key ∧ c.nonce = nonce then some c.msg else none

/-- Lookup in an association list with Python dict semantics: the most
recently inserted binding for a key wins. -/
def dictFind {K V : Type} [DecidableEq K] : List (K × V) → K → Option V
  | [], _ => none
  | (k', v) :: d, k =>
    match dictFind d k with
    | some w => some w
    | none => if k' = k then some v else none

namespace Prf

/-- Padding done by the PRFs of the source (twoclient.Cardinality._prf,
Intersection._phi, Threshold._psi, multiclient.CardinalityEfficient._prf):
append 16 - (len pt mod 16) zero bytes.  Note that this appends a whole
extra block when the length is already a multiple of 16. -/
def zeroPad (pt : Bytes) : Bytes :=
  pt ++ List.replicate (16 - pt.length % 16) 0

/-- Split a byte string into 16-byte blocks. -/
def toBlocks (l : Bytes) : List Bytes :=
  if l = [] then [] else l.take 16 :: toBlocks (l.drop 16)
termination_by l.length
decreasing_by
  simp only [List.length_drop]
  have : l.length ≠ 0 := by
    simpa [List.length_eq_zero] using (by assumption : ¬ l = [])
  omega

/-- AES-CBC over a list of blocks: each block is xored with the previous
ciphertext block (initially the IV) and sent through the block cipher E;
the concatenation of all ciphertext blocks is returned. -/
def cbc (E : Bytes → Bytes) : Bytes → List Bytes → Bytes
  | _, [] => []
  | prev, b :: bs =>
    let c := E (List.zipWith Nat.xor prev b)
    c ++ cbc E c bs

/-- The AES-CBC based PRF of the source: zero-pad, then CBC-encrypt with
the given block cipher E (AES under the fixed key) and IV (the gid),
returning the full ciphertext. -/
def prf (E : Bytes → Bytes) (iv pt : Bytes) : Bytes :=
  cbc E iv (toBlocks (zeroPad pt))

theorem zeroPad_length (pt : Bytes) :
    (zeroPad pt).length = pt.length + (16 - pt.length % 16) := by
  simp [zeroPad]

theorem zeroPad_length_dvd (pt : Bytes) : 16 ∣ (zeroPad pt).length := by
  rw [zeroPad_length]
  have h := Nat.mod_lt pt.length (show 0 < 16 by norm_num)
  omega

theorem toBlocks_length_le {l : Bytes} {b : Bytes} (hb : b ∈ toBlocks l) :
    b.length ≤ 16 := by
  induction l using toBlocks.induct with
  | case1 => simp [toBlocks] at hb
  | case2 l hne ih =>
    rw [toBlocks, if_neg hne] at hb
    rcases List.mem_cons.mp hb with h | h
    · subst h; simp
    · exact ih h

theorem toBlocks_length_eq {l : Bytes} (hdvd : 16 ∣ l.length) :
    ∀ b ∈ toBlocks l, b.length = 16 := by
  induction l using toBlocks.induct with
  | case1 => intro b hb; simp [toBlocks] at hb
  | case2 l hne ih =>
    intro b hb
    have hlen : 16 ≤ l.length := by
      rcases hdvd with ⟨c, hc⟩
      have : l.length ≠ 0 := by
        simpa [List.length_eq_zero] using hne
      omega
    rw [toBlocks, if_neg hne] at hb
    rcases List.mem_cons.mp hb with h | h
    · subst h
      simpa using Nat.min_eq_left hlen
    · refine ih ?_ b h
      rcases hdvd with ⟨c, hc⟩
      refine ⟨c - 1, ?_⟩
      simp only [List.length_drop]
      omega

theorem toBlocks_count {l : Bytes} (hdvd : 16 ∣ l.length) :
    (toBlocks l).length = l.length / 16 := by
  induction l using toBlocks.induct with
  | case1 => simp [toBlocks]
  | case2 l hne ih =>
    have hlen : 16 ≤ l.length := by
      rcases hdvd with ⟨c, hc⟩
      have : l.length ≠ 0 := by
        simpa [List.length_eq_zero] using hne
      omega
    have hdvd' : 16 ∣ (l.drop 16).length := by
      rcases hdvd with ⟨c, hc⟩
      refine ⟨c - 1, ?_⟩
      simp only [List.length_drop]
      omega
    rw [toBlocks, if_neg hne]
    simp only [List.length_cons, ih hdvd', List.length_drop]
    omega

theorem cbc_length (E : Bytes → Bytes)
    (hE : ∀ b : Bytes, b.length = 16 → (E b).length = 16) :
    ∀ (blocks : List Bytes) (prev : Bytes), prev.length = 16 →
      (∀ b ∈ blocks, b.length = 16) →
      (cbc E prev blocks).length = 16 * blocks.length := by
  intro blocks
  induction blocks with
  | nil => intro prev _ _; simp [cbc]
  | cons b bs ih =>
    intro prev hprev hall
    have hb : b.length = 16 := hall b (by simp)
    have hxor : (List.zipWith Nat.xor prev b).length = 16 := by
      simp [List.length_zipWith, hprev, hb]
    have hc : (E (List.zipWith Nat.xor prev b)).length = 16 := hE _ hxor
    simp only [cbc, List.length_append, hc]
    rw [ih _ hc (fun x hx => hall x (by simp [hx]))]
    simp [List.length_cons]
    ring

end Prf

/-- Polynomial evaluation as written in the source (both
twoclient.Threshold.encrypt and multiclient.CardinalityEfficient.setup):
sum of c * x^i over the enumerated coefficient list. -/
def polyEval {q : ℕ} (cs : List (ZMod q)) (x : ZMod q) : ZMod q :=
  (cs.enum.map (fun ic => ic.2 * x ^ ic.1)).sum

/-- Lagrange interpolation coefficient at 0 as written in the source
(twoclient.Threshold.eval and multiclient.CardinalityEfficient.eval):
the product of j * (j - i)⁻¹ over all j in S different from i. -/
def lagrangeDelta {q : ℕ} (S : List (ZMod q)) (i : ZMod q) : ZMod q :=
  ((S.filter (fun j => decide (j ≠ i))).map (fun j => j * (j - i)⁻¹)).prod

namespace MultiClient

/-- multiclient.Cardinality.setup: draw client_count - 1 random scalars
from the stream r and append the negated sum, so that all keys sum to 0. -/
def Cardinality.setup (q : ℕ) (r : ℕ → ZMod q) (clientCount : ℕ) :
    List (ZMod q) :=
  let usks := (List.range (clientCount - 1)).map r
  usks ++ [-usks.sum]

/-- multiclient.Cardinality.encrypt: the set of serialized points
H(gid ++ pt)^usk for pt in the plaintext set.  In discrete-log
representation the point is usk * Hdlog (gid ++ pt) where Hdlog gives the
discrete logarithm of the hash-to-point; the set former is modelled by
deduplication. -/
def Cardinality.encrypt {q : ℕ} (usk : ZMod q) (Hdlog : Bytes → ZMod q)
    (gid : Bytes) (ptSet : List Bytes) : List (ZMod q) :=
  (ptSet.map (fun pt => usk * Hdlog (gid ++ pt))).dedup

/-- Leaf step of multiclient.Cardinality.eval's intersection_count: scan
the last remaining ciphertext set for the unique ct with
product * ct = identity (additively: ct = -p), remove it and count 1. -/
def icLeaf {q : ℕ} (c : List (ZMod q)) (p : ZMod q) : ℕ × List (ZMod q) :=
  if (-p) ∈ c then (1, c.erase (-p)) else (0, c)

/-- Inner loop of a non-leaf level of intersection_count: iterate over a
copy of the ciphertext set, recurse with the updated partial product
(threading the mutated deeper sets), and on a found intersection remove
the current ciphertext and count it. -/
def icRow {q : ℕ}
    (f : List (List (ZMod q)) → ZMod q → ℕ × List (List (ZMod q)))
    (p : ZMod q) :
    List (ZMod q) → List (ZMod q) → List (List (ZMod q)) →
      ℕ × List (ZMod q) × List (List (ZMod q))
  | [], cset, rest => (0, cset, rest)
  | ct :: iter, cset, rest =>
    let fr := f rest (p + ct)
    if fr.1 = 1 then
      let rec' := icRow f p iter (cset.erase ct) fr.2
      (rec'.1 + 1, rec'.2)
    else
      icRow f p iter cset fr.2

/-- multiclient.Cardinality.eval's recursive intersection_count.  The
list of ciphertext sets is kept in processing order (the head is the set
the Python code pops from the tail of its list); fuel bounds the
recursion depth and equals the number of sets at the top call. -/
def icountF {q : ℕ} :
    ℕ → List (List (ZMod q)) → ZMod q → ℕ × List (List (ZMod q))
  | _, [], _ => (0, [])
  | _, [c], p =>
    let r := icLeaf c p
    (r.1, [r.2])
  | 0, cts, _ => (0, cts)
  | fuel + 1, c :: rest, p =>
    let r := icRow (icountF fuel) p c c rest
    (r.1, r.2.1 :: r.2.2)

/-- multiclient.Cardinality.eval: run intersection_count over the list of
ciphertext sets (the source pops sets from the end of the list, so the
model reverses the list and pops from the front) with initial partial
product the identity, and return the count. -/
def Cardinality.eval {q : ℕ} (ctSets : List (List (ZMod q))) : ℕ :=
  (icountF ctSets.length ctSets.reverse 0).1

/-- multiclient.CardinalityEfficient.setup.  The method reads the number
of clients from the pre-existing instance attribute self.client_count
(modelled as attrClientCount) and never from its clientCount argument.
It draws attrClientCount random coefficients (prepending the fixed
constant coefficient 0), forms the secret-sharing polynomial f, and
returns one usk (phi_key, f(i), f(attrClientCount + i)) per
i = 1 .. attrClientCount. -/
def CardinalityEfficient.setup (q : ℕ) (attrClientCount : ℕ)
    (_clientCount : ℕ) (phiKey : Bytes) (r : ℕ → ZMod q) (_m _k : ℕ) :
    List (Bytes × ZMod q × ZMod q) :=
  let cs : List (ZMod q) := 0 :: (List.range attrClientCount).map r
  let f : ZMod q → ZMod q := fun x => polyEval cs x
  (List.range attrClientCount).map
    (fun i => (phiKey, f (i + 1 : ℕ), f ((attrClientCount + (i + 1) : ℕ))))

end MultiClient

/-- Cardinality of the intersection of a nonempty family of finite sets
of byte strings, each given as a duplicate-free list (the specification
side of the correctness claims). -/
def listInterCard (Ss : List (List Bytes)) : ℕ :=
  match Ss with
  | [] => 0
  | S :: rest => (S.filter (fun x => rest.all (fun T => decide (x ∈ T)))).length

theorem prf_length (E : Bytes → Bytes) (iv pt : Bytes)
    (hE : ∀ b : Bytes, b.length = 16 → (E b).length = 16)
    (hiv : iv.length = 16) :
    (Prf.prf E iv pt).length = pt.length + (16 - pt.length % 16) := by
  unfold Prf.prf
  rw [Prf.cbc_length E hE _ iv hiv
    (Prf.toBlocks_length_eq (Prf.zeroPad_length_dvd pt)),
    Prf.toBlocks_count (Prf.zeroPad_length_dvd pt), Prf.zeroPad_length]
  have h := Nat.mod_lt pt.length (show 0 < 16 by norm_num)
  omega

/-- C4 counterexample: on a 16-byte input (a length that is already a
multiple of 16) the PRF's output has 32 bytes, not the 16 bytes
(16 * ceil(len/16)) asserted by the claim; the block cipher is
instantiated with the identity on blocks, which is length-preserving as
any AES instance is. -/
theorem prf_padding_claim_counterexample :
    (Prf.prf (fun b => b) (List.replicate 16 0) (List.replicate 16 0)).length ≠
      16 * (((List.replicate 16 (0 : ℕ)).length + 15) / 16) := by
  rw [prf_length (fun b => b) _ _ (fun _ h => h) (by simp)]
  simp

/-- C4 (amended): the AES-CBC based PRF zero-pads pt by 16 - (len pt mod 16)
bytes, which is always between 1 and 16 - a whole extra block when len pt
is already a multiple of 16 - and returns the full ciphertext, whose
length equals the padded input length, namely
len pt + (16 - len pt mod 16) = 16 * (len pt / 16 + 1). -/
theorem prf_output_length (E : Bytes → Bytes) (iv pt : Bytes)
    (hE : ∀ b : Bytes, b.length = 16 → (E b).length = 16)
    (hiv : iv.length = 16) :
    (Prf.prf E iv pt).length = (Prf.zeroPad pt).length ∧
    (Prf.prf E iv pt).length = pt.length + (16 - pt.length % 16) ∧
    (Prf.prf E iv pt).length = 16 * (pt.length / 16 + 1) := by
  have h := prf_length E iv pt hE hiv
  have hm := Nat.mod_lt pt.length (show 0 < 16 by norm_num)
  refine ⟨?_, h, ?_⟩
  · rw [h, Prf.zeroPad_length]
  · rw [h]
    omega

/-- C4 witness: the amended statement evaluated at the identity block
cipher, a 16-byte IV and a 3-byte plaintext: the output has
3 + 13 = 16 = 16 * (3 / 16 + 1) bytes. -/
theorem prf_output_length_witness :
    (Prf.prf (fun b => b) (List.replicate 16 0) [1, 2, 3]).length =
        (Prf.zeroPad [1, 2, 3]).length ∧
      (Prf.prf (fun b => b) (List.replicate 16 0) [1, 2, 3]).length =
        [1, 2, 3].length + (16 - [1, 2, 3].length % 16) ∧
      (Prf.prf (fun b => b) (List.replicate 16 0) [1, 2, 3]).length =
        16 * ([1, 2, 3].length / 16 + 1) :=
  prf_output_length (fun b => b) _ _ (fun _ h => h) (by simp)

/-- C5: for every security parameter and client count n at least 1,
multiclient Cardinality.setup returns a list of exactly n scalars whose
sum is 0 in the scalar field of the curve. -/
theorem mc_setup_keys_sum_zero (q : ℕ) (r : ℕ → ZMod q) (n : ℕ)
    (hn : 1 ≤ n) :
    (MultiClient.Cardinality.setup q r n).length = n ∧
    (MultiClient.Cardinality.setup q r n).sum = 0 := by
  constructor
  · simp only [MultiClient.Cardinality.setup, List.length_append,
      List.length_map, List.length_range, List.length_cons, List.length_nil]
    omega
  · simp [MultiClient.Cardinality.setup]

/-- C5 witness: at q = 7, n = 3 and a concrete random stream, setup
returns 3 scalars summing to 0. -/
theorem mc_setup_keys_sum_zero_witness :
    (MultiClient.Cardinality.setup 7 (fun i => (i : ZMod 7)) 3).length = 3 ∧
    (MultiClient.Cardinality.setup 7 (fun i => (i : ZMod 7)) 3).sum = 0 :=
  mc_setup_keys_sum_zero 7 (fun i => (i : ZMod 7)) 3 (by norm_num)

/-- C10: CardinalityEfficient.setup never reads its clientCount
parameter: the number of returned user secret keys equals the value of
the pre-existing instance attribute self.client_count (attrClientCount),
and the result is unchanged when the clientCount argument is replaced by
any other value. -/
theorem mceff_setup_ignores_client_count (q attr p1 p2 : ℕ)
    (phiKey : Bytes) (r : ℕ → ZMod q) (m k : ℕ) :
    (MultiClient.CardinalityEfficient.setup q attr p1 phiKey r m k).length
        = attr ∧
    MultiClient.CardinalityEfficient.setup q attr p1 phiKey r m k =
      MultiClient.CardinalityEfficient.setup q attr p2 phiKey r m k := by
  constructor
  · simp [MultiClient.CardinalityEfficient.setup]
  · rfl

/-- The bit_weights lookup table of BloomFilter.BitString: the number of
set bits of each byte value 0..255, copied verbatim from the source. -/
def bitWeights : List ℕ := [0, 1, 1, 2, 1, 2, 2, 3, 1, 2, 2, 3, 2, 3, 3, 4, 1, 2, 2, 3, 2, 3, 3, 4, 2, 3, 3, 4, 3, 4, 4, 5, 1, 2, 2, 3, 2, 3, 3, 4, 2, 3, 3, 4, 3, 4, 4, 5, 2, 3, 3, 4, 3, 4, 4, 5, 3, 4, 4, 5, 4, 5, 5, 6, 1, 2, 2, 3, 2, 3, 3, 4, 2, 3, 3, 4, 3, 4, 4, 5, 2, 3, 3, 4, 3, 4, 4, 5, 3, 4, 4, 5, 4, 5, 5, 6, 2, 3, 3, 4, 3, 4, 4, 5, 3, 4, 4, 5, 4, 5, 5, 6, 3, 4, 4, 5, 4, 5, 5, 6, 4, 5, 5, 6, 5, 6, 6, 7, 1, 2, 2, 3, 2, 3, 3, 4, 2, 3, 3, 4, 3, 4, 4, 5, 2, 3, 3, 4, 3, 4, 4, 5, 3, 4, 4, 5, 4, 5, 5, 6, 2, 3, 3, 4, 3, 4, 4, 5, 3, 4, 4, 5, 4, 5, 5, 6, 3, 4, 4, 5, 4, 5, 5, 6, 4, 5, 5, 6, 5, 6, 6, 7, 2, 3, 3, 4, 3, 4, 4, 5, 3, 4, 4, 5, 4, 5, 5, 6, 3, 4, 4, 5, 4, 5, 5, 6, 4, 5, 5, 6, 5, 6, 6, 7, 3, 4, 4, 5, 4, 5, 5, 6, 4, 5, 5, 6, 5, 6, 6, 7, 4, 5, 5, 6, 5, 6, 6, 7, 5, 6, 6, 7, 6, 7, 7, 8]

/-- BloomFilter.BitString: an l-bit string backed by a bytearray of
(l + 7) / 8 bytes (least significant bit of each byte first). -/
structure BitString where
  l : ℕ
  bs : List ℕ
deriving DecidableEq

namespace BitString

/-- BitString(l): l bits, all bytes zero. -/
def empty (l : ℕ) : BitString :=
  ⟨l, List.replicate ((l + 7) / 8) 0⟩

/-- BitString.__getitem__: extract bit key mod 8 of byte key / 8. -/
def getBit (b : BitString) (key : ℕ) : ℕ :=
  let byte := b.bs.getD (key / 8) 0
  (byte &&& (1 <<< (key % 8))) >>> (key % 8)

/-- BitString.__setitem__: the assert only checks that value is a bit;
the write then unconditionally ORs the bit in, ignoring value. -/
def setItem (b : BitString) (key : ℕ) (_value : ℕ) : BitString :=
  ⟨b.l, b.bs.set (key / 8) ((b.bs.getD (key / 8) 0) ||| (1 <<< (key % 8)))⟩

/-- BitString.__or__: a fresh all-zero bit string of the same bit length
whose first l / 8 bytes (integer division) are set to the bytewise OR;
the trailing partial byte, present whenever l is not divisible by 8,
is left zero by the loop "for i in range(self.l // 8)". -/
def orBS (a b : BitString) : BitString :=
  ⟨a.l, (List.range ((a.l + 7) / 8)).map
    (fun i => if i < a.l / 8 then (a.bs.getD i 0) ||| (b.bs.getD i 0) else 0)⟩

/-- BitString.__and__, with the same l / 8 byte loop as BitString.__or__. -/
def andBS (a b : BitString) : BitString :=
  ⟨a.l, (List.range ((a.l + 7) / 8)).map
    (fun i => if i < a.l / 8 then (a.bs.getD i 0) &&& (b.bs.getD i 0) else 0)⟩

/-- BitString.weight: sum of the table lookups over all bytes. -/
def weight (b : BitString) : ℕ :=
  (b.bs.map (fun byte => bitWeights.getD byte 0)).sum

end BitString

/-- multiclient.BloomFilter: width m, hash count k, the k derived hash
functions and the backing bit string.  The i-th hash of the source is
H(i_bytes ++ y) %% m with the i-prefix in big-endian over bit_length(k)
bytes and H MurmurHash3 (32- or 128-bit depending on m); MurmurHash3 is
an external library and is abstracted by the parameter of new. -/
structure BloomFilter where
  m : ℕ
  k : ℕ
  hashes : List (Bytes → ℕ)
  bs : BitString

namespace BloomFilter

/-- BloomFilter.__init__ with the MurmurHash3 base hash abstracted as the
integer-valued Hmm (Python mmh3 returns signed integers, hence ℤ and the
Python-style nonnegative remainder). -/
def new (m k : ℕ) (Hmm : Bytes → ℤ) : BloomFilter :=
  ⟨m, k,
    (List.range k).map
      (fun i => fun y =>
        (Hmm (natToBytesBE (Nat.size k) i ++ y) % (m : ℤ)).toNat),
    BitString.empty m⟩

/-- BloomFilter.__contains__: all k hashed bit positions are set. -/
def containsB (bf : BloomFilter) (item : Bytes) : Bool :=
  bf.hashes.all (fun h => decide (bf.bs.getBit (h item) = 1))

/-- BloomFilter.add: set the bit at every hashed position. -/
def add (bf : BloomFilter) (elem : Bytes) : BloomFilter :=
  { bf with bs := bf.hashes.foldl (fun bs h => bs.setItem (h elem) 1) bf.bs }

/-- BloomFilter.empty: a fresh filter sharing m, k and the hash family. -/
def emptyLike (bf : BloomFilter) : BloomFilter :=
  ⟨bf.m, bf.k, bf.hashes, BitString.empty bf.m⟩

/-- BloomFilter.union: bitwise OR of the backing bit strings
(via BitString.__or__). -/
def union (a b : BloomFilter) : BloomFilter :=
  { a.emptyLike with bs := a.bs.orBS b.bs }

/-- BloomFilter.intersection: bitwise AND of the backing bit strings. -/
def inter (a b : BloomFilter) : BloomFilter :=
  { a.emptyLike with bs := a.bs.andBS b.bs }

/-- BloomFilter.weight. -/
def weight (bf : BloomFilter) : ℕ := bf.bs.weight

end BloomFilter

/-- BloomFilter.determine_parameters, with the Python floating-point
computation idealized over the real numbers:
m = round(-(n * log p) / (log 2)^2) and k = round(-log2 p).  At the
arguments of interest both quantities are far from half-integers, where
Python rounding and Mathlib rounding agree. -/
noncomputable def BloomFilter.determineParameters (maxElements : ℕ)
    (errorRate : ℝ) : ℤ × ℤ :=
  (round (-((maxElements : ℝ) * Real.log errorRate) / (Real.log 2) ^ 2),
   round (-(Real.logb 2 errorRate)))

/-- C6: evaluation of the Bloom filter union at the failing input m = 9,
k = 1, base hash constantly 8.  The filter A with the element [0] added
contains [0] (bit 8 is set), but the union of A with an empty filter of
the same parameters does not contain [0] and has bit 8 clear, because
BitString.__or__ loops only over the l / 8 complete bytes of the backing
byte array and leaves the trailing partial byte zero.  This refutes the
claimed union law exactly for the widths m not divisible by 8 (note the
derived production width m = 14378 is 2 mod 8). -/
theorem bloom_union_drops_partial_byte :
    (((BloomFilter.new 9 1 (fun _ => 8)).add [0]).union
        (BloomFilter.new 9 1 (fun _ => 8))).containsB [0] = false ∧
    ((BloomFilter.new 9 1 (fun _ => 8)).add [0]).containsB [0] = true ∧
    (((BloomFilter.new 9 1 (fun _ => 8)).add [0]).union
        (BloomFilter.new 9 1 (fun _ => 8))).bs.getBit 8 = 0 ∧
    ((BloomFilter.new 9 1 (fun _ => 8)).add [0]).bs.getBit 8 = 1 := by
  decide

theorem log_1024_eq : Real.log 1024 = 10 * Real.log 2 := by
  have h : (1024 : ℝ) = 2 ^ (10 : ℕ) := by norm_num
  rw [h, Real.log_pow]
  norm_num

theorem log_1000_eq :
    Real.log 1000 = 10 * Real.log 2 - Real.log (128 / 125) := by
  have h : (1000 : ℝ) = 1024 / (128 / 125) := by norm_num
  rw [h, Real.log_div (by norm_num) (by norm_num), log_1024_eq]

theorem log_128_125_bounds :
    (45174 / 1906250 : ℝ) ≤ Real.log (128 / 125) ∧
      Real.log (128 / 125) ≤ 45228 / 1906250 := by
  have habs : |(-(3 / 125) : ℝ)| < 1 := by
    rw [abs_neg, abs_of_pos] <;> norm_num
  have h := Real.abs_log_sub_add_sum_range_le habs 2
  rw [show (1 : ℝ) - -(3 / 125) = 128 / 125 by norm_num] at h
  rw [Finset.sum_range_succ, Finset.sum_range_succ, Finset.sum_range_zero] at h
  rw [abs_neg, abs_of_pos (by norm_num : (0:ℝ) < 3 / 125)] at h
  norm_num at h
  rw [abs_le] at h
  constructor <;> linarith [h.1, h.2]

/-- C9: determine_parameters(1000, 0.001) evaluates to exactly
(m, k) = (14378, 10), where m = round(-n ln p / (ln 2)^2) and
k = round(-log2 p). -/
theorem bloom_determine_parameters_value :
    BloomFilter.determineParameters 1000 (1 / 1000) = (14378, 10) := by
  have l2lo : (6931471803 / 10 ^ 10 : ℝ) < Real.log 2 := by
    have := Real.log_two_gt_d9
    norm_num at this ⊢
    linarith
  have l2hi : Real.log 2 < (6931471808 / 10 ^ 10 : ℝ) := by
    have := Real.log_two_lt_d9
    norm_num at this ⊢
    linarith
  have l2pos : (0 : ℝ) < Real.log 2 := by linarith [l2lo]
  obtain ⟨h124lo, h124hi⟩ := log_128_125_bounds
  have hL := log_1000_eq
  have hb2 : (Real.log 2) ^ 2 < (6931471808 / 10 ^ 10 : ℝ) ^ 2 := by
    nlinarith [l2hi, l2pos]
  have ha2 : (6931471803 / 10 ^ 10 : ℝ) ^ 2 < (Real.log 2) ^ 2 := by
    nlinarith [l2lo, l2pos]
  have hD : (0 : ℝ) < (Real.log 2) ^ 2 := by positivity
  have hinv : Real.log ((1 : ℝ) / 1000) = -Real.log 1000 := by
    rw [one_div, Real.log_inv]
  have hm_lo : (287550 / 20 : ℝ) * (Real.log 2) ^ 2 < 1000 * Real.log 1000 := by
    rw [hL]; nlinarith [hb2, h124hi, l2lo]
  have hm_hi : 1000 * Real.log 1000 < (287570 / 20 : ℝ) * (Real.log 2) ^ 2 := by
    rw [hL]; nlinarith [ha2, h124lo, l2hi]
  have hmval :
      round (-((1000 : ℝ) * Real.log ((1 : ℝ) / 1000)) / (Real.log 2) ^ 2)
        = 14378 := by
    rw [hinv, show -((1000 : ℝ) * -Real.log 1000) = 1000 * Real.log 1000 by ring,
      round_eq]
    have h1 : (1000 * Real.log 1000) / (Real.log 2) ^ 2 < 287570 / 20 := by
      rw [div_lt_iff₀ hD]; linarith [hm_hi]
    have h2 : (287550 / 20 : ℝ) < (1000 * Real.log 1000) / (Real.log 2) ^ 2 := by
      rw [lt_div_iff₀ hD]; linarith [hm_lo]
    have : ((14378 : ℤ) : ℝ) ≤ (1000 * Real.log 1000) / (Real.log 2) ^ 2 + 1 / 2
        ∧ (1000 * Real.log 1000) / (Real.log 2) ^ 2 + 1 / 2
          < (14378 : ℤ) + 1 := by
      constructor <;> push_cast <;> linarith
    exact Int.floor_eq_iff.mpr this
  have hk_lo : (19 / 2 : ℝ) * Real.log 2 < Real.log 1000 := by
    rw [hL]; linarith [l2lo, h124hi]
  have hk_hi : Real.log 1000 < (21 / 2 : ℝ) * Real.log 2 := by
    rw [hL]; linarith [l2hi, h124lo, l2pos]
  have hkval : round (-Real.logb 2 ((1 : ℝ) / 1000)) = 10 := by
    rw [Real.logb, hinv,
      show -(-Real.log 1000 / Real.log 2) = Real.log 1000 / Real.log 2 by ring,
      round_eq]
    have h1 : Real.log 1000 / Real.log 2 < 21 / 2 := by
      rw [div_lt_iff₀ l2pos]; linarith [hk_hi]
    have h2 : (19 / 2 : ℝ) < Real.log 1000 / Real.log 2 := by
      rw [lt_div_iff₀ l2pos]; linarith [hk_lo]
    have : ((10 : ℤ) : ℝ) ≤ Real.log 1000 / Real.log 2 + 1 / 2
        ∧ Real.log 1000 / Real.log 2 + 1 / 2 < (10 : ℤ) + 1 := by
      constructor <;> push_cast <;> linarith
    exact Int.floor_eq_iff.mpr this
  unfold BloomFilter.determineParameters
  rw [Prod.mk.injEq]
  constructor
  · push_cast
    exact hmval
  · exact hkval

namespace TwoClient

/-- twoclient.Cardinality.encrypt (scheme 1): the set of PRF outputs of
the set elements; the PRF with fixed key usk and IV gid is abstracted as
prfF, and the set former is modelled by deduplication. -/
def Cardinality.encrypt (prfF : Bytes → Bytes) (ptSet : List Bytes) :
    List Bytes :=
  (ptSet.map prfF).dedup

/-- twoclient.Intersection.encrypt (scheme 2).  phi models
_phi(cipher, pt), the PRF to a group element: the element k = g^e is
represented by its discrete logarithm e = phi pt.  Hk models _H (group
element to 16-byte AE key) and Hn models _H_bytes (group element to
SHA-256 digest, of which the first 12 bytes become the nonce), both
applied to the discrete-log representative.  Each element binds
ae_key to (serialize(k^sigma), (ae_nonce, AESGCM(ae_key, ae_nonce, pt))). -/
def Intersection.encrypt {q : ℕ} (phi : Bytes → ZMod q)
    (Hk Hn : ZMod q → Bytes) (sigma : ZMod q) (ptSet : List Bytes) :
    List (Bytes × (ZMod q × (Bytes × AeadCt Bytes))) :=
  ptSet.map (fun pt =>
    let k := phi pt
    (Hk k, (sigma * k, ((Hn k).take 12,
      aeadEncrypt (Hk k) ((Hn k).take 12) pt))))

/-- twoclient.Intersection.eval: intersect the key sets of the two
ciphertext dicts (modelled as the duplicate-free list of keys of dict 0
that also occur in dict 1); for each common key recover k as the product (in
discrete logs: the sum) of the two ct1 components, derive the AE key
with _H and decrypt the ct2 of client 0.  An authentication failure
raises in the source; the model aborts in the Option monad. -/
def Intersection.eval {q : ℕ} (Hk : ZMod q → Bytes)
    (ctSets : List (List (Bytes × (ZMod q × (Bytes × AeadCt Bytes))))) :
    Option (Finset Bytes) :=
  let d0 := ctSets.getD 0 []
  let d1 := ctSets.getD 1 []
  let ctInter := (d0.map Prod.fst).dedup.filter
    (fun k => decide (k ∈ d1.map Prod.fst))
  ctInter.foldlM (fun (acc : Finset Bytes) k => do
    let v0 ← dictFind d0 k
    let v1 ← dictFind d1 k
    let key := v0.1 + v1.1
    let pt ← aeadDecrypt (Hk key) v0.2.1 v0.2.2
    pure (insert pt acc)) ∅

/-- twoclient.Threshold.encrypt (scheme 3).  phi and psi1 model the PRFs
under sk1 and sk2 with fixed gid (to a group element in discrete-log
representation and to a scalar respectively); psi2 models the PRF under
sk3, applied to the 16-byte big-endian counters to derive the shared
polynomial coefficients c_0 .. c_{t-1}; Hk models _H; sigma and rho are
this client's multiplicative shares; nonce1 is the fresh nonce drawn
once per encrypt call and reused for every AEAD-1 ciphertext of the
call; nonce2 gives the fresh per-element AEAD-2 nonce (a random function
on the set elements, each of which is encrypted once).  Each element x
binds serialize(k2) to (f(k2)^rho,
(nonce1, AESGCM(H(c_0), nonce1, serialize(k1^sigma))),
(nonce2 x, AESGCM(H(k1), nonce2 x, x))).  The source reads cs[0]; the
model's headD 0 is that entry whenever the threshold is at least 1. -/
def Threshold.encrypt {q : ℕ} (phi psi1 psi2 : Bytes → ZMod q)
    (threshold : ℕ) (Hk : ZMod q → Bytes) (sigma : ZMod q) (rho : ℕ)
    (nonce1 : Bytes) (nonce2 : Bytes → Bytes) (ptSet : List Bytes) :
    List (ZMod q × (ZMod q × (Bytes × AeadCt (ZMod q)) ×
      (Bytes × AeadCt Bytes))) :=
  let cs := (List.range threshold).map (fun j => psi2 (natToBytesBE 16 j))
  let ae1key := Hk (cs.headD 0)
  ptSet.map (fun pt =>
    let k1 := phi pt
    let k2 := psi1 pt
    (k2, ((polyEval cs k2) ^ rho,
      (nonce1, aeadEncrypt ae1key nonce1 (sigma * k1)),
      (nonce2 pt, aeadEncrypt (Hk k1) (nonce2 pt) pt))))

/-- twoclient.Threshold.eval: the cardinality is the size of the key
intersection of the two dicts (modelled as the duplicate-free list of
keys of dict 0 that also occur in dict 1); below the threshold return it with the
empty set.  Otherwise interpolate c0 = f(0) from the first threshold
shares (x = deserialize(key), y = ct2 of client 0 times ct2 of client 1),
then for every common key decrypt both AEAD-1 ciphertexts under H(c0),
reassemble k1 as their product and decrypt client 0's AEAD-2 ciphertext
under H(k1).  An authentication failure raises in the source and aborts
the whole evaluation here (Option monad). -/
def Threshold.eval {q : ℕ} (Hk : ZMod q → Bytes) (threshold : ℕ)
    (ctSets : List (List (ZMod q × (ZMod q × (Bytes × AeadCt (ZMod q)) ×
      (Bytes × AeadCt Bytes))))) :
    Option (ℕ × Finset Bytes) :=
  let d0 := ctSets.getD 0 []
  let d1 := ctSets.getD 1 []
  let ctInter := (d0.map Prod.fst).dedup.filter
    (fun k => decide (k ∈ d1.map Prod.fst))
  let cardinality := ctInter.length
  if cardinality < threshold then some (cardinality, ∅) else do
    let pairs ← (ctInter.take threshold).mapM (fun k => do
      let v0 ← dictFind d0 k
      let v1 ← dictFind d1 k
      pure (k, v0.1 * v1.1))
    let xs := pairs.map Prod.fst
    let c0 := (pairs.map (fun p => p.2 * lagrangeDelta xs p.1)).sum
    let ae1key := Hk c0
    let pts ← ctInter.foldlM (fun (acc : Finset Bytes) k => do
      let v0 ← dictFind d0 k
      let v1 ← dictFind d1 k
      let p1 ← aeadDecrypt ae1key v0.2.1.1 v0.2.1.2
      let p2 ← aeadDecrypt ae1key v1.2.1.1 v1.2.1.2
      let pt ← aeadDecrypt (Hk (p1 + p2)) v0.2.2.1 v0.2.2.2
      pure (insert pt acc)) ∅
    pure (cardinality, pts)

end TwoClient

theorem dictFind_notmem {K V : Type} [DecidableEq K] (d : List (K × V))
    (k : K) (h : ∀ p ∈ d, p.1 ≠ k) : dictFind d k = none := by
  induction d with
  | nil => rfl
  | cons p d ih =>
    obtain ⟨k', v⟩ := p
    simp only [dictFind]
    rw [ih (fun p hp => h p (List.mem_cons_of_mem _ hp))]
    simp [h (k', v) (List.mem_cons_self _ _)]

theorem dictFind_build {B K V : Type} [DecidableEq K]
    (L : List B) (kf : B → K) (vf : B → V) (x : B) (hx : x ∈ L)
    (huniq : ∀ a ∈ L, kf a = kf x → a = x) :
    dictFind (L.map (fun a => (kf a, vf a))) (kf x) = some (vf x) := by
  induction L with
  | nil => simp at hx
  | cons a L ih =>
    simp only [List.map_cons, dictFind]
    by_cases hxL : x ∈ L
    · rw [ih hxL (fun b hb => huniq b (List.mem_cons_of_mem _ hb))]
    · have hax : a = x := by
        rcases List.mem_cons.mp hx with h | h
        · exact h.symm
        · exact absurd h hxL
      have hnone : dictFind (L.map (fun a => (kf a, vf a))) (kf x) = none := by
        apply dictFind_notmem
        intro p hp
        obtain ⟨b, hb, rfl⟩ := List.mem_map.mp hp
        intro hkb
        exact hxL (huniq b (List.mem_cons_of_mem _ hb) hkb ▸ hb)
      rw [hnone]
      simp [hax]

theorem mapM_option_eq_map {K A : Type} (l : List K) (f : K → Option A)
    (g : K → A) (h : ∀ k ∈ l, f k = some (g k)) :
    l.mapM f = some (l.map g) := by
  induction l with
  | nil => rfl
  | cons a l ih =>
    rw [List.mapM_cons, h a (List.mem_cons_self _ _),
      ih (fun k hk => h k (List.mem_cons_of_mem _ hk))]
    rfl

theorem foldlM_option_insert {K B : Type} [DecidableEq B] (l : List K)
    (step : Finset B → K → Option (Finset B)) (g : K → B)
    (h : ∀ acc k, k ∈ l → step acc k = some (insert (g k) acc)) :
    ∀ acc, l.foldlM step acc = some (acc ∪ (l.map g).toFinset) := by
  induction l with
  | nil => intro acc; simp
  | cons a l ih =>
    intro acc
    rw [List.foldlM_cons, h acc a (List.mem_cons_self _ _)]
    have hrest := ih (fun acc k hk => h acc k (List.mem_cons_of_mem _ hk))
      (insert (g a) acc)
    rw [show ((do
      let init ← some (insert (g a) acc)
      List.foldlM step init l) = List.foldlM step (insert (g a) acc) l)
      from rfl, hrest]
    congr 1
    ext y
    simp only [Finset.mem_union, Finset.mem_insert, List.map_cons,
      List.mem_toFinset, List.mem_map, List.toFinset_cons]
    tauto

theorem pow_rho_collapse {q : ℕ} [Fact (Nat.Prime q)] (a : ZMod q)
    (r1 r2 : ℕ) (hr : (r1 + r2) % (q - 1) = 1) :
    a ^ r1 * a ^ r2 = a := by
  rcases eq_or_ne a 0 with rfl | ha
  · rcases Nat.eq_zero_or_pos r1 with h1 | h1
    · have h2 : r2 ≠ 0 := by
        intro h0
        rw [h1, h0] at hr
        simp at hr
      rw [h1, pow_zero, one_mul, zero_pow h2]
    · rw [zero_pow (by omega : r1 ≠ 0), zero_mul]
  · rw [← pow_add]
    have hdecomp : r1 + r2 = (q - 1) * ((r1 + r2) / (q - 1)) + 1 := by
      conv_lhs => rw [← Nat.div_add_mod (r1 + r2) (q - 1)]
      rw [hr]
    rw [hdecomp, pow_add, pow_mul, ZMod.pow_card_sub_one_eq_one ha,
      one_pow, pow_one, one_mul]

theorem enumFrom_pow_sum {q : ℕ} (cs : List (ZMod q)) :
    ∀ (n : ℕ) (x : ZMod q),
      ((List.enumFrom (n + 1) cs).map (fun ic => ic.2 * x ^ ic.1)).sum =
        x * ((List.enumFrom n cs).map (fun ic => ic.2 * x ^ ic.1)).sum := by
  induction cs with
  | nil => intro n x; simp
  | cons c cs ih =>
    intro n x
    simp only [List.enumFrom_cons, List.map_cons, List.sum_cons, ih (n + 1) x,
      mul_add, pow_succ]
    ring

theorem polyEval_cons {q : ℕ} (c : ZMod q) (cs : List (ZMod q)) (x : ZMod q) :
    polyEval (c :: cs) x = c + x * polyEval cs x := by
  unfold polyEval
  show ((List.enumFrom 0 (c :: cs)).map (fun ic => ic.2 * x ^ ic.1)).sum = _
  rw [List.enumFrom_cons]
  simp only [List.map_cons, List.sum_cons, pow_zero, mul_one]
  rw [enumFrom_pow_sum cs 0 x]
  rfl

theorem polyEval_zero_point {q : ℕ} (cs : List (ZMod q)) :
    polyEval cs 0 = cs.headD 0 := by
  cases cs with
  | nil => rfl
  | cons c cs => rw [polyEval_cons]; simp

/-- Proof-side companion of polyEval: the polynomial with the given
coefficient list, in Horner form. -/
noncomputable def listPoly {q : ℕ} : List (ZMod q) → Polynomial (ZMod q)
  | [] => 0
  | c :: rest => Polynomial.C c + Polynomial.X * listPoly rest

theorem listPoly_eval {q : ℕ} (cs : List (ZMod q)) (x : ZMod q) :
    (listPoly cs).eval x = polyEval cs x := by
  induction cs with
  | nil => simp [listPoly, polyEval]
  | cons c cs ih =>
    simp [listPoly, polyEval_cons, ih]

theorem listPoly_degree {q : ℕ} (cs : List (ZMod q)) :
    (listPoly cs).degree < (cs.length : WithBot ℕ) := by
  induction cs with
  | nil =>
    simp only [listPoly, Polynomial.degree_zero, List.length_nil,
      Nat.cast_zero]
    exact WithBot.bot_lt_coe 0
  | cons c cs ih =>
    have h1 : (Polynomial.C c).degree < ((cs.length + 1 : ℕ) : WithBot ℕ) :=
      lt_of_le_of_lt Polynomial.degree_C_le (by
        exact_mod_cast WithBot.coe_lt_coe.mpr (Nat.succ_pos cs.length))
    have h2 : (Polynomial.X * listPoly cs).degree
        < ((cs.length + 1 : ℕ) : WithBot ℕ) := by
      refine lt_of_le_of_lt (Polynomial.degree_mul_le _ _) ?_
      refine lt_of_le_of_lt (add_le_add_right Polynomial.degree_X_le _) ?_
      have : ((cs.length + 1 : ℕ) : WithBot ℕ) = 1 + (cs.length : WithBot ℕ) := by
        push_cast
        ring
      rw [this]
      exact WithBot.add_lt_add_left (by simp) ih
    simp only [listPoly, List.length_cons]
    exact lt_of_le_of_lt (Polynomial.degree_add_le _ _) (max_lt h1 h2)

theorem lagrange_list_sum {q : ℕ} [Fact (Nat.Prime q)]
    (cs xs : List (ZMod q)) (hnd : xs.Nodup) (hlen : cs.length ≤ xs.length) :
    (xs.map (fun x => polyEval cs x * lagrangeDelta xs x)).sum =
      polyEval cs 0 := by
  classical
  set s : Finset (ZMod q) := xs.toFinset with hs
  have hcard : s.card = xs.length := List.toFinset_card_of_nodup hnd
  have hinj : Set.InjOn (id : ZMod q → ZMod q) ↑s := fun a _ b _ h => h
  have hdeg : (listPoly cs).degree < (s.card : WithBot ℕ) := by
    rw [hcard]
    exact lt_of_lt_of_le (listPoly_degree cs) (by exact_mod_cast hlen)
  have hrep := Lagrange.eq_interpolate hinj hdeg
  have heval0 : (listPoly cs).eval 0 =
      ∑ i ∈ s, (listPoly cs).eval i * (Lagrange.basis s id i).eval 0 := by
    conv_lhs => rw [hrep]
    rw [Lagrange.interpolate_apply, Polynomial.eval_finset_sum]
    refine Finset.sum_congr rfl (fun i _ => ?_)
    simp [Polynomial.eval_mul]
  have hbasis : ∀ i ∈ s, (Lagrange.basis s id i).eval 0 = lagrangeDelta xs i := by
    intro i hi
    rw [Lagrange.basis, Polynomial.eval_prod]
    have hfs : (xs.filter (fun j => decide (j ≠ i))).toFinset = s.erase i := by
      ext a
      simp only [List.mem_toFinset, List.mem_filter, Finset.mem_erase, hs,
        decide_eq_true_eq]
      tauto
    rw [lagrangeDelta, ← List.prod_toFinset _ (hnd.filter _), hfs]
    refine Finset.prod_congr rfl (fun j hj => ?_)
    rw [Lagrange.basisDivisor]
    simp only [Polynomial.eval_mul, Polynomial.eval_C, Polynomial.eval_sub,
      Polynomial.eval_X, id_eq, zero_sub]
    rw [show (j : ZMod q) - i = -(i - j) by ring, inv_neg]
    ring
  calc (xs.map (fun x => polyEval cs x * lagrangeDelta xs x)).sum
      = ∑ i ∈ s, polyEval cs i * lagrangeDelta xs i :=
        (List.sum_toFinset _ hnd).symm
    _ = ∑ i ∈ s, (listPoly cs).eval i * (Lagrange.basis s id i).eval 0 := by
        refine Finset.sum_congr rfl (fun i hi => ?_)
        rw [listPoly_eval, hbasis i hi]
    _ = (listPoly cs).eval 0 := heval0.symm
    _ = polyEval cs 0 := listPoly_eval cs 0

theorem filter_map_comm {A K : Type} (f : A → K) (p : K → Bool) :
    ∀ l : List A, (l.map f).filter p = (l.filter (fun x => p (f x))).map f := by
  intro l
  induction l with
  | nil => rfl
  | cons a l ih =>
    by_cases h : p (f a)
    · simp [List.filter_cons, h, ih]
    · simp [List.filter_cons, h, ih]

/-- The unique preimage of a dict key among the encrypted set elements. -/
def keyPreimage {K : Type} [DecidableEq K] (kf : Bytes → K) (S : List Bytes)
    (k : K) : Bytes :=
  (S.find? (fun a => decide (kf a = k))).getD []

theorem keyPreimage_spec {K : Type} [DecidableEq K] (kf : Bytes → K)
    (S : List Bytes) (k : K) (h : ∃ a ∈ S, kf a = k) :
    keyPreimage kf S k ∈ S ∧ kf (keyPreimage kf S k) = k := by
  obtain ⟨a, ha, hk⟩ := h
  have hsome : (S.find? (fun a => decide (kf a = k))).isSome := by
    rw [List.find?_isSome]
    exact ⟨a, ha, by simp [hk]⟩
  obtain ⟨b, hb⟩ := Option.isSome_iff_exists.mp hsome
  unfold keyPreimage
  rw [hb]
  refine ⟨List.mem_of_find?_eq_some hb, ?_⟩
  have := List.find?_some hb
  simpa using this

theorem keyInter_eq_map {K : Type} [DecidableEq K] (kf : Bytes → K)
    (S0 S1 : List Bytes) (hnd0 : S0.Nodup)
    (hinj : ∀ a ∈ S0 ++ S1, ∀ b ∈ S0 ++ S1, kf a = kf b → a = b) :
    (S0.map kf).dedup.filter (fun k => decide (k ∈ S1.map kf)) =
      (S0.filter (fun x => decide (x ∈ S1))).map kf := by
  have hmapnd : (S0.map kf).Nodup :=
    hnd0.map_on (fun a ha b hb h =>
      hinj a (List.mem_append_left _ ha) b (List.mem_append_left _ hb) h)
  rw [List.dedup_eq_self.mpr hmapnd, filter_map_comm]
  congr 1
  apply List.filter_congr
  intro x hx
  apply decide_eq_decide.mpr
  constructor
  · intro hmem
    obtain ⟨b, hb, hkb⟩ := List.mem_map.mp hmem
    have : b = x := hinj b (List.mem_append_right _ hb) x
      (List.mem_append_left _ hx) hkb
    exact this ▸ hb
  · intro hmem
    exact List.mem_map.mpr ⟨x, hmem, rfl⟩

theorem interList_toFinset (S0 S1 : List Bytes) :
    (S0.filter (fun x => decide (x ∈ S1))).toFinset =
      S0.toFinset ∩ S1.toFinset := by
  ext a
  simp [List.mem_filter]

theorem keyPreimage_roundtrip {K : Type} [DecidableEq K] (kf : Bytes → K)
    (S0 S1 : List Bytes)
    (hinj : ∀ a ∈ S0 ++ S1, ∀ b ∈ S0 ++ S1, kf a = kf b → a = b)
    (x : Bytes) (hx : x ∈ S0) : keyPreimage kf S0 (kf x) = x := by
  obtain ⟨hmem, hval⟩ := keyPreimage_spec kf S0 (kf x) ⟨x, hx, rfl⟩
  exact hinj _ (List.mem_append_left _ hmem) x (List.mem_append_left _ hx) hval

/-- C3: TwoClient-Intersection end-to-end correctness.  The PRF-to-group
map of the msk and gid is abstracted as phi, the AE key and nonce
derivations as Hk and Hn; the two user secret keys carry the shares
sigma and 1 - sigma.  For duplicate-free plaintext sets whose elements
have pairwise distinct dictionary keys Hk(phi x) - which holds with
overwhelming probability for the real AES and SHA-256 primitives - the
evaluation of the two ciphertext dicts returns exactly the plaintext
intersection of the two sets. -/
theorem twoclient_intersection_correct {q : ℕ}
    (phi : Bytes → ZMod q) (Hk Hn : ZMod q → Bytes) (sigma : ZMod q)
    (S0 S1 : List Bytes)
    (hinj : ∀ a ∈ S0 ++ S1, ∀ b ∈ S0 ++ S1,
      Hk (phi a) = Hk (phi b) → a = b) :
    TwoClient.Intersection.eval Hk
        [TwoClient.Intersection.encrypt phi Hk Hn sigma S0,
         TwoClient.Intersection.encrypt phi Hk Hn (1 - sigma) S1] =
      some (S0.toFinset ∩ S1.toFinset) := by
  classical
  have hkeys0 :
      (TwoClient.Intersection.encrypt phi Hk Hn sigma S0).map Prod.fst
        = S0.map (fun x => Hk (phi x)) := by
    simp [TwoClient.Intersection.encrypt, List.map_map, Function.comp]
  have hkeys1 :
      (TwoClient.Intersection.encrypt phi Hk Hn (1 - sigma) S1).map Prod.fst
        = S1.map (fun x => Hk (phi x)) := by
    simp [TwoClient.Intersection.encrypt, List.map_map, Function.comp]
  unfold TwoClient.Intersection.eval
  simp only [List.getD_cons_zero, List.getD_cons_succ, hkeys0, hkeys1]
  refine Eq.trans (foldlM_option_insert _ _
    (fun k => keyPreimage (fun x => Hk (phi x)) S0 k) ?_ ∅) ?_
  · intro acc k hk
    rw [List.mem_filter, List.mem_dedup] at hk
    obtain ⟨hk0, hk1b⟩ := hk
    obtain ⟨x0, hx0, rfl⟩ := List.mem_map.mp hk0
    have hk1 : Hk (phi x0) ∈ S1.map (fun x => Hk (phi x)) := by
      simpa using hk1b
    obtain ⟨x1, hx1, hkeq⟩ := List.mem_map.mp hk1
    have hx01 : x1 = x0 := hinj x1 (List.mem_append_right _ hx1) x0
      (List.mem_append_left _ hx0) hkeq
    rw [hx01] at hx1
    have hd0 := dictFind_build S0 (fun a => Hk (phi a))
      (fun a => (sigma * phi a, ((Hn (phi a)).take 12,
        aeadEncrypt (Hk (phi a)) ((Hn (phi a)).take 12) a))) x0 hx0
      (fun a ha h => hinj a (List.mem_append_left _ ha) x0
        (List.mem_append_left _ hx0) h)
    have hd1 := dictFind_build S1 (fun a => Hk (phi a))
      (fun a => ((1 - sigma) * phi a, ((Hn (phi a)).take 12,
        aeadEncrypt (Hk (phi a)) ((Hn (phi a)).take 12) a))) x0 hx1
      (fun a ha h => hinj a (List.mem_append_right _ ha) x0
        (List.mem_append_right _ hx1) h)
    rw [show TwoClient.Intersection.encrypt phi Hk Hn sigma S0 =
      S0.map (fun a => (Hk (phi a), (sigma * phi a, ((Hn (phi a)).take 12,
        aeadEncrypt (Hk (phi a)) ((Hn (phi a)).take 12) a)))) from rfl]
    rw [show TwoClient.Intersection.encrypt phi Hk Hn (1 - sigma) S1 =
      S1.map (fun a => (Hk (phi a), ((1 - sigma) * phi a, ((Hn (phi a)).take 12,
        aeadEncrypt (Hk (phi a)) ((Hn (phi a)).take 12) a)))) from rfl]
    rw [hd0, hd1]
    show (aeadDecrypt (Hk (sigma * phi x0 + (1 - sigma) * phi x0))
        ((Hn (phi x0)).take 12)
        (aeadEncrypt (Hk (phi x0)) ((Hn (phi x0)).take 12) x0)).bind
        (fun pt => some (insert pt acc)) = _
    rw [show sigma * phi x0 + (1 - sigma) * phi x0 = phi x0 from by ring]
    have hrt := keyPreimage_roundtrip (fun a => Hk (phi a)) S0 S1 hinj x0 hx0
    simp [aeadDecrypt, aeadEncrypt, hrt]
  · congr 1
    rw [Finset.empty_union]
    ext y
    simp only [List.mem_toFinset, Finset.mem_inter]
    constructor
    · intro hy
      obtain ⟨k, hkI, hgk⟩ := List.mem_map.mp hy
      rw [List.mem_filter, List.mem_dedup] at hkI
      obtain ⟨hk0, hk1b⟩ := hkI
      obtain ⟨x0, hx0, rfl⟩ := List.mem_map.mp hk0
      have hk1 : Hk (phi x0) ∈ S1.map (fun x => Hk (phi x)) := by
        simpa using hk1b
      obtain ⟨x1, hx1, hkeq⟩ := List.mem_map.mp hk1
      have hx01 : x1 = x0 := hinj x1 (List.mem_append_right _ hx1) x0
        (List.mem_append_left _ hx0) hkeq
      rw [hx01] at hx1
      rw [keyPreimage_roundtrip (fun a => Hk (phi a)) S0 S1 hinj x0 hx0] at hgk
      rw [← hgk]
      exact ⟨hx0, hx1⟩
    · intro hy
      obtain ⟨hy0, hy1⟩ := hy
      refine List.mem_map.mpr ⟨Hk (phi y), ?_, ?_⟩
      · rw [List.mem_filter, List.mem_dedup]
        refine ⟨List.mem_map.mpr ⟨y, hy0, rfl⟩, ?_⟩
        simpa using List.mem_map.mpr ⟨y, hy1, rfl⟩
      · exact keyPreimage_roundtrip (fun a => Hk (phi a)) S0 S1 hinj y hy0

/-- C3 witness: a concrete evaluation at q = 5 with S0 = {[1],[2]} and
S1 = {[2],[3]}: the evaluation returns exactly the intersection {[2]}. -/
theorem twoclient_intersection_correct_witness :
    TwoClient.Intersection.eval (q := 5) (fun z => [z.val])
        [TwoClient.Intersection.encrypt (fun x => ((x.headD 0 : ℕ) : ZMod 5))
          (fun z => [z.val]) (fun z => [z.val, 0]) 3 [[1], [2]],
         TwoClient.Intersection.encrypt (fun x => ((x.headD 0 : ℕ) : ZMod 5))
          (fun z => [z.val]) (fun z => [z.val, 0]) (1 - 3) [[2], [3]]] =
      some (([[1], [2]] : List Bytes).toFinset ∩
        ([[2], [3]] : List Bytes).toFinset) :=
  twoclient_intersection_correct (fun x => ((x.headD 0 : ℕ) : ZMod 5))
    (fun z => [z.val]) (fun z => [z.val, 0]) 3 [[1], [2]] [[2], [3]]
    (by decide)

theorem aead_roundtrip {M : Type} (key nonce : Bytes) (m : M) :
    aeadDecrypt key nonce (aeadEncrypt key nonce m) = some m := by
  simp [aeadDecrypt, aeadEncrypt]

/-- C2: TwoClient-Threshold end-to-end correctness.  The PRFs keyed by
sk1, sk2, sk3 with fixed gid are abstracted as phi, psi1 and psi2, the
AE-key derivation _H as Hk; the two user secret keys carry the shares
sigma and 1 - sigma and the exponent shares rho0 and rho1 with
rho0 + rho1 = 1 mod (q - 1), exactly as setup produces them; each client
uses its own fresh AEAD-1 nonce and per-element AEAD-2 nonces.  For a
threshold t at least 1 and duplicate-free plaintext sets whose elements
have pairwise distinct dictionary keys psi1 x, the evaluation returns
the intersection cardinality together with the plaintext intersection
when the cardinality reaches t, and with the empty set otherwise. -/
theorem twoclient_threshold_correct {q : ℕ} [Fact (Nat.Prime q)]
    (phi psi1 psi2 : Bytes → ZMod q) (Hk : ZMod q → Bytes)
    (t : ℕ) (_ht : 1 ≤ t) (sigma : ZMod q) (rho0 rho1 : ℕ)
    (hrho : (rho0 + rho1) % (q - 1) = 1)
    (n1a n1b : Bytes) (n2a n2b : Bytes → Bytes)
    (S0 S1 : List Bytes) (hnd0 : S0.Nodup)
    (hinj : ∀ a ∈ S0 ++ S1, ∀ b ∈ S0 ++ S1, psi1 a = psi1 b → a = b) :
    TwoClient.Threshold.eval Hk t
        [TwoClient.Threshold.encrypt phi psi1 psi2 t Hk sigma rho0 n1a n2a S0,
         TwoClient.Threshold.encrypt phi psi1 psi2 t Hk (1 - sigma) rho1
           n1b n2b S1] =
      some ((S0.toFinset ∩ S1.toFinset).card,
        if t ≤ (S0.toFinset ∩ S1.toFinset).card
          then S0.toFinset ∩ S1.toFinset else ∅) := by
  classical
  have hkeys0 :
      (TwoClient.Threshold.encrypt phi psi1 psi2 t Hk sigma rho0 n1a n2a
        S0).map Prod.fst = S0.map psi1 := by
    simp [TwoClient.Threshold.encrypt, List.map_map, Function.comp]
  have hkeys1 :
      (TwoClient.Threshold.encrypt phi psi1 psi2 t Hk (1 - sigma) rho1 n1b n2b
        S1).map Prod.fst = S1.map psi1 := by
    simp [TwoClient.Threshold.encrypt, List.map_map, Function.comp]
  unfold TwoClient.Threshold.eval
  simp only [List.getD_cons_zero, List.getD_cons_succ, hkeys0, hkeys1]
  rw [keyInter_eq_map psi1 S0 S1 hnd0 hinj]
  set csv : List (ZMod q) :=
    (List.range t).map (fun j => psi2 (natToBytesBE 16 j)) with hcsv
  set I : List (ZMod q) := (S0.filter (fun x => decide (x ∈ S1))).map psi1
    with hIdef
  have hndI : I.Nodup := by
    rw [hIdef]
    refine List.Nodup.map_on ?_ (hnd0.filter _)
    intro a ha b hb hab
    exact hinj a (List.mem_append_left _ (List.mem_of_mem_filter ha)) b
      (List.mem_append_left _ (List.mem_of_mem_filter hb)) hab
  have hlenI : I.length = (S0.toFinset ∩ S1.toFinset).card := by
    rw [hIdef, List.length_map, ← interList_toFinset S0 S1]
    exact (List.toFinset_card_of_nodup (hnd0.filter _)).symm
  have hmemI : ∀ k ∈ I, ∃ x0, x0 ∈ S0 ∧ x0 ∈ S1 ∧ psi1 x0 = k := by
    intro k hk
    rw [hIdef] at hk
    obtain ⟨x0, hx0f, rfl⟩ := List.mem_map.mp hk
    refine ⟨x0, (List.mem_filter.mp hx0f).1, ?_, rfl⟩
    have := (List.mem_filter.mp hx0f).2
    simpa using this
  have henc0 : TwoClient.Threshold.encrypt phi psi1 psi2 t Hk sigma rho0
      n1a n2a S0
      = S0.map (fun pt => (psi1 pt, ((polyEval csv (psi1 pt)) ^ rho0,
        (n1a, aeadEncrypt (Hk (csv.headD 0)) n1a (sigma * phi pt)),
        (n2a pt, aeadEncrypt (Hk (phi pt)) (n2a pt) pt)))) := rfl
  have henc1 : TwoClient.Threshold.encrypt phi psi1 psi2 t Hk (1 - sigma) rho1
      n1b n2b S1
      = S1.map (fun pt => (psi1 pt, ((polyEval csv (psi1 pt)) ^ rho1,
        (n1b, aeadEncrypt (Hk (csv.headD 0)) n1b ((1 - sigma) * phi pt)),
        (n2b pt, aeadEncrypt (Hk (phi pt)) (n2b pt) pt)))) := rfl
  by_cases hlt : I.length < t
  · rw [if_pos hlt, hlenI]
    rw [hlenI] at hlt
    rw [if_neg (by omega : ¬ t ≤ (S0.toFinset ∩ S1.toFinset).card)]
  · rw [if_neg hlt]
    have hle : t ≤ (S0.toFinset ∩ S1.toFinset).card := by
      rw [← hlenI]; omega
    have hgmap : ∀ k ∈ List.take t I, (do
        let v0 ← dictFind (TwoClient.Threshold.encrypt phi psi1 psi2 t Hk
          sigma rho0 n1a n2a S0) k
        let v1 ← dictFind (TwoClient.Threshold.encrypt phi psi1 psi2 t Hk
          (1 - sigma) rho1 n1b n2b S1) k
        pure (k, v0.1 * v1.1) : Option (ZMod q × ZMod q))
          = some (k, polyEval csv k) := by
      intro k hk
      obtain ⟨x0, hx00, hx01, rfl⟩ := hmemI k (List.mem_of_mem_take hk)
      rw [henc0, henc1]
      rw [dictFind_build S0 psi1 _ x0 hx00 (fun a ha h =>
        hinj a (List.mem_append_left _ ha) x0
          (List.mem_append_left _ hx00) h)]
      rw [dictFind_build S1 psi1 _ x0 hx01 (fun a ha h =>
        hinj a (List.mem_append_right _ ha) x0
          (List.mem_append_right _ hx01) h)]
      show some (psi1 x0,
        (polyEval csv (psi1 x0)) ^ rho0 * (polyEval csv (psi1 x0)) ^ rho1) = _
      rw [pow_rho_collapse (polyEval csv (psi1 x0)) rho0 rho1 hrho]
    have hA := mapM_option_eq_map (List.take t I) _
      (fun k => (k, polyEval csv k)) hgmap
    have hndTake : (List.take t I).Nodup :=
      hndI.sublist (List.take_sublist t I)
    have hlenTake : (List.take t I).length = t := by
      rw [List.length_take]
      omega
    have hcsvlen : csv.length = t := by rw [hcsv]; simp
    have hfst : ((List.take t I).map (fun k => (k, polyEval csv k))).map
        Prod.fst = List.take t I := by
      rw [List.map_map]
      exact List.map_id _
    have hc0 : (((List.take t I).map (fun k => (k, polyEval csv k))).map
        (fun p => p.2 * lagrangeDelta
          (((List.take t I).map (fun k => (k, polyEval csv k))).map Prod.fst)
          p.1)).sum = csv.headD 0 := by
      rw [hfst, List.map_map]
      rw [show ((fun p => p.2 * lagrangeDelta (List.take t I) p.1) ∘
        (fun k => ((k, polyEval csv k) : ZMod q × ZMod q)))
        = fun x => polyEval csv x * lagrangeDelta (List.take t I) x from rfl]
      rw [lagrange_list_sum csv (List.take t I) hndTake
        (by rw [hcsvlen, hlenTake])]
      exact polyEval_zero_point csv
    rw [hA]
    show (List.foldlM (fun acc k => do
        let v0 ← dictFind (TwoClient.Threshold.encrypt phi psi1 psi2 t Hk
          sigma rho0 n1a n2a S0) k
        let v1 ← dictFind (TwoClient.Threshold.encrypt phi psi1 psi2 t Hk
          (1 - sigma) rho1 n1b n2b S1) k
        let p1 ← aeadDecrypt (Hk ((((List.take t I).map
          (fun k => (k, polyEval csv k))).map
            (fun p : ZMod q × ZMod q => p.2 * lagrangeDelta
            (((List.take t I).map (fun k => (k, polyEval csv k))).map
              Prod.fst) p.1)).sum)) v0.2.1.1 v0.2.1.2
        let p2 ← aeadDecrypt (Hk ((((List.take t I).map
          (fun k => (k, polyEval csv k))).map
            (fun p : ZMod q × ZMod q => p.2 * lagrangeDelta
            (((List.take t I).map (fun k => (k, polyEval csv k))).map
              Prod.fst) p.1)).sum)) v1.2.1.1 v1.2.1.2
        let pt ← aeadDecrypt (Hk (p1 + p2)) v0.2.2.1 v0.2.2.2
        pure (insert pt acc)) ∅ I).bind
      (fun pts => some (I.length, pts))
      = some ((S0.toFinset ∩ S1.toFinset).card,
        if t ≤ (S0.toFinset ∩ S1.toFinset).card
          then S0.toFinset ∩ S1.toFinset else ∅)
    rw [hc0]
    have hstepB : ∀ (acc : Finset Bytes) (k : ZMod q), k ∈ I → (do
        let v0 ← dictFind (TwoClient.Threshold.encrypt phi psi1 psi2 t Hk
          sigma rho0 n1a n2a S0) k
        let v1 ← dictFind (TwoClient.Threshold.encrypt phi psi1 psi2 t Hk
          (1 - sigma) rho1 n1b n2b S1) k
        let p1 ← aeadDecrypt (Hk (csv.headD 0)) v0.2.1.1 v0.2.1.2
        let p2 ← aeadDecrypt (Hk (csv.headD 0)) v1.2.1.1 v1.2.1.2
        let pt ← aeadDecrypt (Hk (p1 + p2)) v0.2.2.1 v0.2.2.2
        pure (insert pt acc) : Option (Finset Bytes))
          = some (insert (keyPreimage psi1 S0 k) acc) := by
      intro acc k hk
      obtain ⟨x0, hx00, hx01, rfl⟩ := hmemI k hk
      rw [henc0, henc1]
      rw [dictFind_build S0 psi1 _ x0 hx00 (fun a ha h =>
        hinj a (List.mem_append_left _ ha) x0
          (List.mem_append_left _ hx00) h)]
      rw [dictFind_build S1 psi1 _ x0 hx01 (fun a ha h =>
        hinj a (List.mem_append_right _ ha) x0
          (List.mem_append_right _ hx01) h)]
      show (aeadDecrypt (Hk (csv.headD 0)) n1a
          (aeadEncrypt (Hk (csv.headD 0)) n1a (sigma * phi x0))).bind
        (fun p1 => (aeadDecrypt (Hk (csv.headD 0)) n1b
          (aeadEncrypt (Hk (csv.headD 0)) n1b ((1 - sigma) * phi x0))).bind
        (fun p2 => (aeadDecrypt (Hk (p1 + p2)) (n2a x0)
          (aeadEncrypt (Hk (phi x0)) (n2a x0) x0)).bind
        (fun pt => some (insert pt acc)))) = _
      rw [aead_roundtrip, Option.some_bind, aead_roundtrip, Option.some_bind]
      rw [show sigma * phi x0 + (1 - sigma) * phi x0 = phi x0 from by ring]
      rw [aead_roundtrip, Option.some_bind]
      have hrt := keyPreimage_roundtrip psi1 S0 S1 hinj x0 hx00
      simp [hrt]
    have hB := foldlM_option_insert I (fun acc k => do
        let v0 ← dictFind (TwoClient.Threshold.encrypt phi psi1 psi2 t Hk
          sigma rho0 n1a n2a S0) k
        let v1 ← dictFind (TwoClient.Threshold.encrypt phi psi1 psi2 t Hk
          (1 - sigma) rho1 n1b n2b S1) k
        let p1 ← aeadDecrypt (Hk (csv.headD 0)) v0.2.1.1 v0.2.1.2
        let p2 ← aeadDecrypt (Hk (csv.headD 0)) v1.2.1.1 v1.2.1.2
        let pt ← aeadDecrypt (Hk (p1 + p2)) v0.2.2.1 v0.2.2.2
        pure (insert pt acc))
      (fun k => keyPreimage psi1 S0 k) hstepB ∅
    rw [hB]
    have hmapid : I.map (fun k => keyPreimage psi1 S0 k)
        = S0.filter (fun x => decide (x ∈ S1)) := by
      rw [hIdef, List.map_map]
      rw [show ((fun k => keyPreimage psi1 S0 k) ∘ psi1)
        = fun x => keyPreimage psi1 S0 (psi1 x) from rfl]
      have h1 : (S0.filter (fun x => decide (x ∈ S1))).map
          (fun x => keyPreimage psi1 S0 (psi1 x))
          = (S0.filter (fun x => decide (x ∈ S1))).map id :=
        List.map_congr_left (fun a ha =>
          keyPreimage_roundtrip psi1 S0 S1 hinj a (List.mem_of_mem_filter ha))
      rw [h1, List.map_id]
    show some (I.length,
        ∅ ∪ (I.map (fun k => keyPreimage psi1 S0 k)).toFinset) = _
    rw [hlenI, hmapid, interList_toFinset, Finset.empty_union, if_pos hle]

/-- C2 witness: a concrete threshold evaluation at q = 5 with t = 1,
rho0 = 2, rho1 = 3 (2 + 3 = 1 mod 4), S0 = {[1],[2]} and S1 = {[2],[3]}:
the cardinality 1 reaches the threshold and the intersection {[2]} is
disclosed. -/
theorem twoclient_threshold_correct_witness :
    TwoClient.Threshold.eval (q := 5) (fun z => [z.val]) 1
        [TwoClient.Threshold.encrypt (fun x => ((x.headD 0 + 1 : ℕ) : ZMod 5))
          (fun x => ((x.headD 0 : ℕ) : ZMod 5)) (fun _ => 2) 1
          (fun z => [z.val]) 3 2 [1] (fun _ => [3]) [[1], [2]],
         TwoClient.Threshold.encrypt (fun x => ((x.headD 0 + 1 : ℕ) : ZMod 5))
          (fun x => ((x.headD 0 : ℕ) : ZMod 5)) (fun _ => 2) 1
          (fun z => [z.val]) (1 - 3) 3 [2] (fun _ => [4]) [[2], [3]]] =
      some ((([[1], [2]] : List Bytes).toFinset ∩
          ([[2], [3]] : List Bytes).toFinset).card,
        if 1 ≤ (([[1], [2]] : List Bytes).toFinset ∩
            ([[2], [3]] : List Bytes).toFinset).card
          then ([[1], [2]] : List Bytes).toFinset ∩
            ([[2], [3]] : List Bytes).toFinset else ∅) := by
  have hnd : ([[1], [2]] : List Bytes).Nodup := by decide
  have hinj : ∀ a ∈ ([[1], [2]] : List Bytes) ++ [[2], [3]],
      ∀ b ∈ ([[1], [2]] : List Bytes) ++ [[2], [3]],
      (fun x : Bytes => ((x.headD 0 : ℕ) : ZMod 5)) a
        = (fun x : Bytes => ((x.headD 0 : ℕ) : ZMod 5)) b → a = b := by
    decide
  have hp5 : Nat.Prime 5 := by norm_num
  have hf : Fact (Nat.Prime 5) := Fact.mk hp5
  exact twoclient_threshold_correct (q := 5)
    (fun x => ((x.headD 0 + 1 : ℕ) : ZMod 5))
    (fun x => ((x.headD 0 : ℕ) : ZMod 5)) (fun _ => 2) (fun z => [z.val])
    1 (by norm_num) 3 2 3 (by norm_num) [1] [2] (fun _ => [3]) (fun _ => [4])
    [[1], [2]] [[2], [3]] hnd hinj

/-- C8 counterexample: a concrete threshold evaluation at q = 5, t = 1
where both clients share the element [2] (so the key-intersection
cardinality 1 is determined and reaches the threshold) but client 0's
AEAD-1 ciphertext has been re-encrypted under a wrong key, modelling a
tampered ciphertext whose tag check fails.  The evaluation returns no
result at all - the InvalidTag exception propagates out of eval - so the
caller does not receive the cardinality, contrary to the claim. -/
theorem threshold_eval_tamper_counterexample :
    TwoClient.Threshold.eval (q := 5) (fun z => [z.val]) 1
        [(TwoClient.Threshold.encrypt (fun _ => 2)
            (fun x => ((x.headD 0 : ℕ) : ZMod 5)) (fun _ => 3) 1
            (fun z => [z.val]) 3 2 [1] (fun _ => [7]) [[2]]).map
          (fun kv => (kv.1, (kv.2.1,
            ((kv.2.2.1.1, aeadEncrypt [9, 9] (kv.2.2.1.2.nonce)
              (kv.2.2.1.2.msg)), kv.2.2.2)))),
         TwoClient.Threshold.encrypt (fun _ => 2)
            (fun x => ((x.headD 0 : ℕ) : ZMod 5)) (fun _ => 3) 1
            (fun z => [z.val]) (1 - 3) 3 [2] (fun _ => [8]) [[2]]] = none ∧
    (((TwoClient.Threshold.encrypt (q := 5) (fun _ => 2)
            (fun x => ((x.headD 0 : ℕ) : ZMod 5)) (fun _ => 3) 1
            (fun z => [z.val]) 3 2 [1] (fun _ => [7]) [[2]]).map
        Prod.fst).dedup.filter
      (fun k => decide (k ∈ (TwoClient.Threshold.encrypt (q := 5) (fun _ => 2)
            (fun x => ((x.headD 0 : ℕ) : ZMod 5)) (fun _ => 3) 1
            (fun z => [z.val]) (1 - 3) 3 [2] (fun _ => [8]) [[2]]).map
        Prod.fst))).length = 1 := by
  decide

/-- C8 (amended): in TwoClient-Threshold eval, an AEAD authentication
failure during the intersection-recovery phase is fatal to the whole
evaluation - the exception propagates and the caller receives neither the
cardinality nor the intersection.  What does hold of the split: below
the threshold eval returns the key-intersection cardinality with the
empty set without performing any AEAD operation, and whenever eval
returns a result at all, its first component is always the
key-intersection cardinality. -/
theorem threshold_eval_error_aborts {q : ℕ} (Hk : ZMod q → Bytes) (t : ℕ)
    (ds : List (List (ZMod q × (ZMod q × (Bytes × AeadCt (ZMod q)) ×
      (Bytes × AeadCt Bytes))))) :
    ((((ds.getD 0 []).map Prod.fst).dedup.filter
        (fun k => decide (k ∈ (ds.getD 1 []).map Prod.fst))).length < t →
      TwoClient.Threshold.eval Hk t ds
        = some ((((ds.getD 0 []).map Prod.fst).dedup.filter
            (fun k => decide (k ∈ (ds.getD 1 []).map Prod.fst))).length, ∅)) ∧
    ∀ r, TwoClient.Threshold.eval Hk t ds = some r →
      r.1 = (((ds.getD 0 []).map Prod.fst).dedup.filter
        (fun k => decide (k ∈ (ds.getD 1 []).map Prod.fst))).length := by
  constructor
  · intro h
    unfold TwoClient.Threshold.eval
    rw [if_pos h]
  · intro r hr
    unfold TwoClient.Threshold.eval at hr
    by_cases hc : (((ds.getD 0 []).map Prod.fst).dedup.filter
        (fun k => decide (k ∈ (ds.getD 1 []).map Prod.fst))).length < t
    · rw [if_pos hc] at hr
      obtain rfl : _ = r := Option.some.inj hr
      rfl
    · rw [if_neg hc] at hr
      have hr' := Option.bind_eq_some.mp hr
      obtain ⟨pairs, _, hr2⟩ := hr'
      have hr2' := Option.bind_eq_some.mp hr2
      obtain ⟨pts, _, hr3⟩ := hr2'
      obtain rfl : _ = r := Option.some.inj hr3
      rfl

/-- C8 witness for the amended statement: the below-threshold branch at
t = 5 on the honest ciphertexts of two clients sharing the single
element [2]: eval returns the cardinality 1 with the empty set. -/
theorem threshold_eval_error_aborts_witness :
    TwoClient.Threshold.eval (q := 5) (fun z => [z.val]) 5
        [TwoClient.Threshold.encrypt (fun _ => 2)
            (fun x => ((x.headD 0 : ℕ) : ZMod 5)) (fun _ => 3) 5
            (fun z => [z.val]) 3 2 [1] (fun _ => [7]) [[2]],
         TwoClient.Threshold.encrypt (fun _ => 2)
            (fun x => ((x.headD 0 : ℕ) : ZMod 5)) (fun _ => 3) 5
            (fun z => [z.val]) (1 - 3) 3 [2] (fun _ => [8]) [[2]]] =
      some (((([TwoClient.Threshold.encrypt (q := 5) (fun _ => 2)
            (fun x => ((x.headD 0 : ℕ) : ZMod 5)) (fun _ => 3) 5
            (fun z => [z.val]) 3 2 [1] (fun _ => [7]) [[2]],
         TwoClient.Threshold.encrypt (fun _ => 2)
            (fun x => ((x.headD 0 : ℕ) : ZMod 5)) (fun _ => 3) 5
            (fun z => [z.val]) (1 - 3) 3 [2] (fun _ => [8]) [[2]]].getD 0
              []).map Prod.fst).dedup.filter
            (fun k => decide (k ∈ ([TwoClient.Threshold.encrypt (q := 5)
              (fun _ => 2) (fun x => ((x.headD 0 : ℕ) : ZMod 5)) (fun _ => 3)
              5 (fun z => [z.val]) 3 2 [1] (fun _ => [7]) [[2]],
            TwoClient.Threshold.encrypt (fun _ => 2)
              (fun x => ((x.headD 0 : ℕ) : ZMod 5)) (fun _ => 3) 5
              (fun z => [z.val]) (1 - 3) 3 [2] (fun _ => [8]) [[2]]].getD 1
                []).map Prod.fst))).length, ∅) := by
  exact (threshold_eval_error_aborts (fun z => [z.val]) 5 _).1 (by decide)

/-- multiclient.CardinalityEfficient.encrypt.  The Bloom filters use the
hash family hs (the mmh3-derived functions built by BloomFilter.__init__,
abstracted because mmh3 is an external library); prfF models
_prf(cipher, pt) for the fixed phi_key and gid; Hd gives the discrete
logarithm of the hash-to-point H; the randomness of group.random(G) is
the stream r of discrete logarithms, consumed left to right in program
order: for every element and every bit position first gr and then, for
zero bits only, the random grho mask; afterwards one random mask per
zero bit of the whole-set filter. -/
def MultiClient.CardinalityEfficient.encrypt {q : ℕ} (m k : ℕ)
    (hs : List (Bytes → ℕ)) (prfF : Bytes → Bytes) (Hd : Bytes → ZMod q)
    (gid : Bytes) (fi fni : ZMod q) (r : ℕ → ZMod q) (ptSet : List Bytes) :
    List (ZMod q) × List (List (ZMod q × ZMod q)) :=
  let bfAdd : BitString → Bytes → BitString :=
    fun bs c => hs.foldl (fun b h => b.setItem (h c) 1) bs
  let encElement : ℕ → Bytes → (ℕ × List (ZMod q × ZMod q)) :=
    fun idx0 pt =>
      let c := prfF pt
      let bf := bfAdd (BitString.empty m) c
      let t := bf.weight
      (List.range m).foldl (fun (st : ℕ × List (ZMod q × ZMod q)) i =>
        let ct := fni * Hd (natToBytesBE (Nat.size k) i ++ gid)
        let gr := r st.1
        if bf.getBit i = 0 then
          (st.1 + 2, st.2 ++ [(ct + r (st.1 + 1), gr)])
        else
          (st.1 + 1, st.2 ++ [(ct + (t : ZMod q) * gr, gr)])) (idx0, [])
  let step := fun (st : ℕ × BitString × List (List (ZMod q × ZMod q))) pt =>
    let el := encElement st.1 pt
    (el.1, bfAdd st.2.1 (prfF pt), st.2.2 ++ [el.2])
  let folded := ptSet.foldl step (0, BitString.empty m, [])
  let ctBf := (List.range m).foldl
    (fun (st : ℕ × List (ZMod q)) i =>
      let ct := fi * Hd (natToBytesBE (Nat.size k) i ++ gid)
      if folded.2.1.getBit i = 0 then (st.1 + 1, st.2 ++ [ct + r st.1])
      else (st.1, st.2 ++ [ct]))
    (folded.1, [])
  (ctBf.2, folded.2.2)

/-- C7 counterexample: MultiClient-CardinalityEfficient encryption is
randomized, not deterministic: at q = 5 with a one-bit Bloom filter and
a single plaintext, two calls of encrypt with identical key, gid and
plaintext set but different samplings of group.random(G) produce
different ciphertexts (the per-bit blinding factor gr is part of the
ciphertext). -/
theorem mceff_encrypt_not_deterministic :
    MultiClient.CardinalityEfficient.encrypt (q := 5) 1 1 [fun _ => 0]
        (fun c => c) (fun _ => 1) [] 1 1 (fun _ => 1) [[0]] ≠
      MultiClient.CardinalityEfficient.encrypt (q := 5) 1 1 [fun _ => 0]
        (fun c => c) (fun _ => 1) [] 1 1 (fun _ => 2) [[0]] := by
  decide

/-- C7 (amended): encryption is deterministic for schemes 1
(TwoClient-Cardinality), 2 (TwoClient-Intersection) and 4
(MultiClient-Cardinality): their encrypt draws no randomness, so two
calls with identical key, gid and plaintext set yield identical
ciphertexts, bit-exactly up to set ordering - permuting the plaintext
set permutes the ciphertext set or dict.  Scheme 5
(MultiClient-CardinalityEfficient) is randomized: its encrypt draws
fresh per-bit group elements, so equal inputs generally yield different
ciphertexts (see the counterexample). -/
theorem encrypt_deterministic_schemes_1_2_4 {q : ℕ}
    (prfF : Bytes → Bytes) (phi : Bytes → ZMod q) (Hk Hn : ZMod q → Bytes)
    (sigma : ZMod q) (usk : ZMod q) (Hdlog : Bytes → ZMod q) (gid : Bytes)
    (l1 l2 : List Bytes) (hperm : l1.Perm l2) :
    (TwoClient.Cardinality.encrypt prfF l1).Perm
        (TwoClient.Cardinality.encrypt prfF l2) ∧
      (TwoClient.Intersection.encrypt phi Hk Hn sigma l1).Perm
        (TwoClient.Intersection.encrypt phi Hk Hn sigma l2) ∧
      (MultiClient.Cardinality.encrypt usk Hdlog gid l1).Perm
        (MultiClient.Cardinality.encrypt usk Hdlog gid l2) := by
  refine ⟨?_, ?_, ?_⟩
  · exact (hperm.map prfF).dedup
  · exact hperm.map _
  · exact (hperm.map _).dedup

/-- C7 witness: the amended statement at concrete inputs, with the two
plaintext lists being the two orderings of the set of the byte strings
[0] and [1]. -/
theorem encrypt_deterministic_schemes_1_2_4_witness :
    (TwoClient.Cardinality.encrypt (fun c => 0 :: c) [[0], [1]]).Perm
        (TwoClient.Cardinality.encrypt (fun c => 0 :: c) [[1], [0]]) ∧
      (TwoClient.Intersection.encrypt (q := 5)
          (fun x => ((x.headD 0 : ℕ) : ZMod 5)) (fun z => [z.val])
          (fun z => [z.val, 0]) 3 [[0], [1]]).Perm
        (TwoClient.Intersection.encrypt
          (fun x => ((x.headD 0 : ℕ) : ZMod 5)) (fun z => [z.val])
          (fun z => [z.val, 0]) 3 [[1], [0]]) ∧
      (MultiClient.Cardinality.encrypt (q := 5) 2
          (fun x => ((x.headD 0 : ℕ) : ZMod 5)) [] [[0], [1]]).Perm
        (MultiClient.Cardinality.encrypt 2
          (fun x => ((x.headD 0 : ℕ) : ZMod 5)) [] [[1], [0]]) :=
  encrypt_deterministic_schemes_1_2_4 (fun c => 0 :: c)
    (fun x => ((x.headD 0 : ℕ) : ZMod 5)) (fun z => [z.val])
    (fun z => [z.val, 0]) 3 2 (fun x => ((x.headD 0 : ℕ) : ZMod 5)) []
    [[0], [1]] [[1], [0]] (by decide)

/-- Proof-side view of one client in the multiclient Cardinality scheme:
its element encoding (the discrete logarithm of H(gid ++ x)^usk), its
full plaintext set and the plaintexts whose ciphertexts are still
unconsumed in the current state of intersection_count. -/
structure MCRow (q : ℕ) where
  enc : Bytes → ZMod q
  dom : List Bytes
  cur : List Bytes

def MCRow.state {q : ℕ} (r : MCRow q) : List (ZMod q) := r.cur.map r.enc

def MCRow.eraseTag {q : ℕ} (y : Bytes) (r : MCRow q) : MCRow q :=
  ⟨r.enc, r.dom, r.cur.erase y⟩

def MCRow.Ok {q : ℕ} (r : MCRow q) : Prop :=
  r.cur ⊆ r.dom ∧ r.cur.Nodup ∧
    ∀ a ∈ r.dom, ∀ b ∈ r.dom, r.enc a = r.enc b → a = b

/-- A choice of one plaintext from each client's full set. -/
def rowChoices {q : ℕ} (rs : List (MCRow q)) (ts : List Bytes) : Prop :=
  List.Forall₂ (fun t r => t ∈ r.dom) ts rs

/-- The sum of the chosen encodings (the discrete log of the product of
the chosen ciphertexts). -/
def rowSum {q : ℕ} (rs : List (MCRow q)) (ts : List Bytes) : ZMod q :=
  (List.zipWith (fun t (r : MCRow q) => r.enc t) ts rs).sum

/-- A partial product p is dead for the rows rs: no choice of one
element per row completes it to the identity. -/
def RowsDead {q : ℕ} (p : ZMod q) (rs : List (MCRow q)) : Prop :=
  ∀ ts, rowChoices rs ts → p + rowSum rs ts ≠ 0

/-- A partial product p is live for the tag y: choosing y in every row
completes it to the identity, and no other choice does. -/
def RowsLive {q : ℕ} (p : ZMod q) (y : Bytes) (rs : List (MCRow q)) : Prop :=
  (p + (rs.map (fun r => r.enc y)).sum = 0) ∧
  ∀ ts, rowChoices rs ts → p + rowSum rs ts = 0 → ∀ t ∈ ts, t = y

theorem map_erase_of_injOn {q : ℕ} (enc : Bytes → ZMod q) (dom : List Bytes)
    (hinj : ∀ a ∈ dom, ∀ b ∈ dom, enc a = enc b → a = b)
    (y : Bytes) (hy : y ∈ dom) :
    ∀ cur : List Bytes, cur ⊆ dom →
      (cur.map enc).erase (enc y) = (cur.erase y).map enc := by
  intro cur
  induction cur with
  | nil => intro _; rfl
  | cons a l ih =>
    intro hsub
    by_cases hay : a = y
    · subst hay
      rw [List.map_cons, List.erase_cons_head, List.erase_cons_head]
    · have hane : enc a ≠ enc y := fun h =>
        hay (hinj a (hsub (List.mem_cons_self _ _)) y hy h)
      rw [List.map_cons, List.erase_cons_tail (by simpa using hane),
        List.erase_cons_tail (by simpa using hay),
        List.map_cons, ih (fun z hz => hsub (List.mem_cons_of_mem _ hz))]

theorem rowChoices_eraseTag {q : ℕ} (y : Bytes) (rs : List (MCRow q))
    (ts : List Bytes) :
    rowChoices (rs.map (MCRow.eraseTag y)) ts ↔ rowChoices rs ts := by
  unfold rowChoices
  rw [List.forall₂_map_right_iff]
  exact Iff.rfl

theorem rowSum_eraseTag {q : ℕ} (y : Bytes) (rs : List (MCRow q))
    (ts : List Bytes) :
    rowSum (rs.map (MCRow.eraseTag y)) ts = rowSum rs ts := by
  unfold rowSum
  rw [List.zipWith_map_right]
  rfl

theorem rowsDead_eraseTag {q : ℕ} {p : ZMod q} {rs : List (MCRow q)}
    (y : Bytes) (hd : RowsDead p rs) : RowsDead p (rs.map (MCRow.eraseTag y)) := by
  intro ts hts
  rw [rowSum_eraseTag]
  exact hd ts ((rowChoices_eraseTag y rs ts).mp hts)

theorem rowsLive_eraseTag {q : ℕ} {p : ZMod q} {y' : Bytes}
    {rs : List (MCRow q)} (y : Bytes) (hl : RowsLive p y' rs) :
    RowsLive p y' (rs.map (MCRow.eraseTag y)) := by
  obtain ⟨hpos, huniq⟩ := hl
  constructor
  · rw [List.map_map]
    exact hpos
  · intro ts hts hsum
    rw [rowSum_eraseTag] at hsum
    exact huniq ts ((rowChoices_eraseTag y rs ts).mp hts) hsum

theorem rowsOk_eraseTag {q : ℕ} {rs : List (MCRow q)} (y : Bytes)
    (hok : ∀ r ∈ rs, r.Ok) : ∀ r ∈ rs.map (MCRow.eraseTag y), r.Ok := by
  intro r hr
  obtain ⟨r0, hr0, rfl⟩ := List.mem_map.mp hr
  obtain ⟨hsub, hnd, hinj⟩ := hok r0 hr0
  exact ⟨fun z hz => hsub (List.erase_subset _ _ hz), hnd.erase y, hinj⟩

theorem rowsDead_tail {q : ℕ} {p : ZMod q} {r : MCRow q} {rs : List (MCRow q)}
    (hd : RowsDead p (r :: rs)) (x : Bytes) (hx : x ∈ r.dom) :
    RowsDead (p + r.enc x) rs := by
  intro ts hts hsum
  refine hd (x :: ts) (List.Forall₂.cons hx hts) ?_
  unfold rowSum at hsum ⊢
  rw [List.zipWith_cons_cons, List.sum_cons, ← add_assoc]
  exact hsum

theorem rowsLive_tail_ne {q : ℕ} {p : ZMod q} {y : Bytes} {r : MCRow q}
    {rs : List (MCRow q)} (hl : RowsLive p y (r :: rs)) (x : Bytes)
    (hx : x ∈ r.dom) (hxy : x ≠ y) : RowsDead (p + r.enc x) rs := by
  intro ts hts hsum
  refine hxy (hl.2 (x :: ts) (List.Forall₂.cons hx hts) ?_ x
    (List.mem_cons_self _ _))
  unfold rowSum at hsum ⊢
  rw [List.zipWith_cons_cons, List.sum_cons, ← add_assoc]
  exact hsum

theorem rowsLive_tail_eq {q : ℕ} {p : ZMod q} {y : Bytes} {r : MCRow q}
    {rs : List (MCRow q)} (hl : RowsLive p y (r :: rs)) (hy : y ∈ r.dom) :
    RowsLive (p + r.enc y) y rs := by
  constructor
  · have := hl.1
    rw [List.map_cons, List.sum_cons, ← add_assoc] at this
    exact this
  · intro ts hts hsum
    intro t ht
    refine hl.2 (y :: ts) (List.Forall₂.cons hy hts) ?_ t
      (List.mem_cons_of_mem _ ht)
    unfold rowSum at hsum ⊢
    rw [List.zipWith_cons_cons, List.sum_cons, ← add_assoc]
    exact hsum

theorem icountF_leaf {q : ℕ} (fuel : ℕ) (c : List (ZMod q)) (p : ZMod q) :
    MultiClient.icountF fuel [c] p
      = ((MultiClient.icLeaf c p).1, [(MultiClient.icLeaf c p).2]) := by
  cases fuel <;> rfl

theorem icountF_step {q : ℕ} (fuel : ℕ) (c c2 : List (ZMod q))
    (rest : List (List (ZMod q))) (p : ZMod q) :
    MultiClient.icountF (fuel + 1) (c :: c2 :: rest) p =
      ((MultiClient.icRow (MultiClient.icountF fuel) p c c (c2 :: rest)).1,
       (MultiClient.icRow (MultiClient.icountF fuel) p c c (c2 :: rest)).2.1 ::
         (MultiClient.icRow (MultiClient.icountF fuel) p c c
           (c2 :: rest)).2.2) := rfl

theorem icRow_cons {q : ℕ}
    (f : List (List (ZMod q)) → ZMod q → ℕ × List (List (ZMod q)))
    (p ct : ZMod q) (iter cset : List (ZMod q))
    (rest : List (List (ZMod q))) :
    MultiClient.icRow f p (ct :: iter) cset rest =
      (if (f rest (p + ct)).1 = 1 then
        ((MultiClient.icRow f p iter (cset.erase ct) (f rest (p + ct)).2).1 + 1,
         (MultiClient.icRow f p iter (cset.erase ct) (f rest (p + ct)).2).2)
      else
        MultiClient.icRow f p iter cset (f rest (p + ct)).2) := rfl

theorem icRow_all_dead {q : ℕ} (fuel : ℕ) (rs' : List (MCRow q)) (p : ZMod q)
    (e : Bytes → ZMod q)
    (ihdead : ∀ p', RowsDead p' rs' →
      MultiClient.icountF fuel (rs'.map MCRow.state) p'
        = (0, rs'.map MCRow.state)) :
    ∀ (l : List Bytes) (cset : List (ZMod q)),
      (∀ x ∈ l, RowsDead (p + e x) rs') →
      MultiClient.icRow (MultiClient.icountF fuel) p (l.map e) cset
          (rs'.map MCRow.state)
        = (0, cset, rs'.map MCRow.state) := by
  intro l
  induction l with
  | nil => intro cset _; rfl
  | cons x l ih =>
    intro cset hall
    rw [List.map_cons, icRow_cons,
      ihdead (p + e x) (hall x (List.mem_cons_self _ _))]
    simp only [reduceIte]
    exact ih cset (fun z hz => hall z (List.mem_cons_of_mem _ hz))

theorem rows_dead_eval {q : ℕ} : ∀ (rs : List (MCRow q)) (fuel : ℕ)
    (p : ZMod q), rs ≠ [] → rs.length ≤ fuel → (∀ r ∈ rs, r.Ok) →
    RowsDead p rs →
    MultiClient.icountF fuel (rs.map MCRow.state) p
      = (0, rs.map MCRow.state) := by
  intro rs
  induction rs with
  | nil => intro _ _ h; exact absurd rfl h
  | cons r rs ih =>
    intro fuel p _ hfuel hok hdead
    cases rs with
    | nil =>
      rw [show (([r] : List (MCRow q)).map MCRow.state)
        = [r.cur.map r.enc] from rfl, icountF_leaf]
      have hnot : (-p) ∉ r.cur.map r.enc := by
        intro hmem
        obtain ⟨x, hx, hex⟩ := List.mem_map.mp hmem
        refine hdead [x] (List.Forall₂.cons
          ((hok r (List.mem_cons_self _ _)).1 hx) List.Forall₂.nil) ?_
        unfold rowSum
        rw [List.zipWith_cons_cons]
        simp [hex]
      unfold MultiClient.icLeaf
      rw [if_neg hnot]
    | cons r2 rs2 =>
      obtain ⟨fuel, rfl⟩ : ∃ f, fuel = f + 1 :=
        ⟨fuel - 1, by simp at hfuel; omega⟩
      simp only [List.map_cons]
      rw [show MCRow.state r = r.cur.map r.enc from rfl, icountF_step]
      have hrow := icRow_all_dead fuel (r2 :: rs2) p r.enc
        (fun p' hd => ih fuel p' (by simp)
          (by simp at hfuel ⊢; omega)
          (fun r' hr' => hok r' (List.mem_cons_of_mem _ hr')) hd)
        r.cur (r.cur.map r.enc)
        (fun x hx => rowsDead_tail hdead x ((hok r (List.mem_cons_self _ _)).1 hx))
      simp only [List.map_cons] at hrow
      rw [hrow]

theorem icRow_skip_zero {q : ℕ}
    (f : List (List (ZMod q)) → ZMod q → ℕ × List (List (ZMod q)))
    (p : ZMod q) :
    ∀ (m1 m2 : List (ZMod q)) (cset : List (ZMod q))
      (rest : List (List (ZMod q))),
      (∀ ct ∈ m1, f rest (p + ct) = (0, rest)) →
      MultiClient.icRow f p (m1 ++ m2) cset rest
        = MultiClient.icRow f p m2 cset rest := by
  intro m1
  induction m1 with
  | nil => intro m2 cset rest _; rfl
  | cons ct m1 ih =>
    intro m2 cset rest h
    rw [List.cons_append, icRow_cons, h ct (List.mem_cons_self _ _)]
    simp only [reduceIte]
    exact ih m2 cset rest (fun z hz => h z (List.mem_cons_of_mem _ hz))

theorem icRow_all_zero {q : ℕ}
    (f : List (List (ZMod q)) → ZMod q → ℕ × List (List (ZMod q)))
    (p : ZMod q) :
    ∀ (m : List (ZMod q)) (cset : List (ZMod q))
      (rest : List (List (ZMod q))),
      (∀ ct ∈ m, f rest (p + ct) = (0, rest)) →
      MultiClient.icRow f p m cset rest = (0, cset, rest) := by
  intro m
  induction m with
  | nil => intro cset rest _; rfl
  | cons ct m ih =>
    intro cset rest h
    rw [icRow_cons, h ct (List.mem_cons_self _ _)]
    simp only [reduceIte]
    exact ih cset rest (fun z hz => h z (List.mem_cons_of_mem _ hz))

theorem icRow_hit_zero {q : ℕ}
    (f : List (List (ZMod q)) → ZMod q → ℕ × List (List (ZMod q)))
    (p ct0 : ZMod q) (m2 cset : List (ZMod q))
    (rest rest' : List (List (ZMod q)))
    (h1 : f rest (p + ct0) = (1, rest'))
    (h2 : ∀ ct ∈ m2, f rest' (p + ct) = (0, rest')) :
    MultiClient.icRow f p (ct0 :: m2) cset rest
      = (1, cset.erase ct0, rest') := by
  rw [icRow_cons, h1]
  simp only [reduceIte]
  rw [icRow_all_zero f p m2 (cset.erase ct0) rest' h2]

theorem icountF_step_rows {q : ℕ} (fuel : ℕ) (r r2 : MCRow q)
    (rs2 : List (MCRow q)) (p : ZMod q) :
    MultiClient.icountF (fuel + 1) ((r :: r2 :: rs2).map MCRow.state) p
      = ((MultiClient.icRow (MultiClient.icountF fuel) p (r.cur.map r.enc)
            (r.cur.map r.enc) ((r2 :: rs2).map MCRow.state)).1,
         (MultiClient.icRow (MultiClient.icountF fuel) p (r.cur.map r.enc)
            (r.cur.map r.enc) ((r2 :: rs2).map MCRow.state)).2.1 ::
          (MultiClient.icRow (MultiClient.icountF fuel) p (r.cur.map r.enc)
            (r.cur.map r.enc) ((r2 :: rs2).map MCRow.state)).2.2) := rfl

theorem rowChoices_const {q : ℕ} :
    ∀ (rs : List (MCRow q)) (ts : List Bytes) (y : Bytes),
      rowChoices rs ts → (∀ t ∈ ts, t = y) → ∀ r ∈ rs, y ∈ r.dom := by
  intro rs ts y h
  induction h with
  | nil => intro _ r hr; exact absurd hr (List.not_mem_nil r)
  | @cons t r ts' rs' h1 _ ih =>
    intro hall r0 hr0
    rcases List.mem_cons.mp hr0 with rfl | hr'
    · exact (hall t (List.mem_cons_self _ _)) ▸ h1
    · exact ih (fun z hz => hall z (List.mem_cons_of_mem _ hz)) r0 hr'

theorem MCRow.eraseTag_dom {q : ℕ} (y : Bytes) (r : MCRow q) :
    (MCRow.eraseTag y r).dom = r.dom := rfl

theorem countP_all_eraseTag {q : ℕ} (x : Bytes) (rs : List (MCRow q))
    (l : List Bytes) :
    l.countP
        (fun z => (rs.map (MCRow.eraseTag x)).all (fun r => decide (z ∈ r.dom)))
      = l.countP (fun z => rs.all (fun r => decide (z ∈ r.dom))) := by
  simp only [List.all_map]
  rfl

theorem rows_live_eval_mem {q : ℕ} : ∀ (rs : List (MCRow q)) (fuel : ℕ)
    (p : ZMod q) (y : Bytes), rs ≠ [] → rs.length ≤ fuel →
    (∀ r ∈ rs, r.Ok) → (∀ r ∈ rs, y ∈ r.dom) → RowsLive p y rs →
    (∀ r ∈ rs, y ∈ r.cur) →
    MultiClient.icountF fuel (rs.map MCRow.state) p
      = (1, rs.map (fun r => (r.cur.erase y).map r.enc)) := by
  intro rs
  induction rs with
  | nil => intro _ _ _ h; exact absurd rfl h
  | cons r rs ih =>
    intro fuel p y _ hfuel hok hdom hlive hall
    have hokr := hok r (List.mem_cons_self _ _)
    have hyd := hdom r (List.mem_cons_self _ _)
    have hyc := hall r (List.mem_cons_self _ _)
    cases rs with
    | nil =>
      have hney : r.enc y = -p := by
        have h1 := hlive.1
        have h2 : p + r.enc y = 0 := by simpa using h1
        exact (neg_eq_of_add_eq_zero_right h2).symm
      have hle : MultiClient.icLeaf (r.cur.map r.enc) p
          = (1, (r.cur.erase y).map r.enc) := by
        unfold MultiClient.icLeaf
        rw [if_pos (by rw [← hney]; exact List.mem_map_of_mem _ hyc), ← hney,
          map_erase_of_injOn r.enc r.dom hokr.2.2 y hyd r.cur hokr.1]
      rw [show (([r] : List (MCRow q)).map MCRow.state)
          = [r.cur.map r.enc] from rfl, icountF_leaf, hle]
      rfl
    | cons r2 rs2 =>
      obtain ⟨fuel, rfl⟩ : ∃ f, fuel = f + 1 :=
        ⟨fuel - 1, by simp at hfuel; omega⟩
      rw [icountF_step_rows]
      -- the recursive hit at the tag y
      have hhit : MultiClient.icountF fuel ((r2 :: rs2).map MCRow.state)
            (p + r.enc y)
          = (1, (r2 :: rs2).map (fun r0 => (r0.cur.erase y).map r0.enc)) :=
        ih fuel (p + r.enc y) y (by simp) (by simp at hfuel ⊢; omega)
          (fun r0 h0 => hok r0 (List.mem_cons_of_mem _ h0))
          (fun r0 h0 => hdom r0 (List.mem_cons_of_mem _ h0))
          (rowsLive_tail_eq hlive hyd)
          (fun r0 h0 => hall r0 (List.mem_cons_of_mem _ h0))
      have herased : (r2 :: rs2).map (fun r0 => (r0.cur.erase y).map r0.enc)
          = ((r2 :: rs2).map (MCRow.eraseTag y)).map MCRow.state :=
        (List.map_map MCRow.state (MCRow.eraseTag y) (r2 :: rs2)).symm
      -- split the iteration list of the top row at the tag
      obtain ⟨l1, l2, hc⟩ := List.append_of_mem hyc
      have hndc := hokr.2.1
      rw [hc] at hndc
      obtain ⟨-, hnd2, hdisj⟩ := List.nodup_append.mp hndc
      have hy1 : y ∉ l1 := fun h => hdisj h (List.mem_cons_self _ _)
      have hy2 : y ∉ l2 := (List.nodup_cons.mp hnd2).1
      -- hits before y are dead on the untouched deeper rows
      have hskip : ∀ ct ∈ l1.map r.enc,
          MultiClient.icountF fuel ((r2 :: rs2).map MCRow.state) (p + ct)
            = (0, (r2 :: rs2).map MCRow.state) := by
        intro ct hct
        obtain ⟨x, hx, rfl⟩ := List.mem_map.mp hct
        have hxcur : x ∈ r.cur := by
          rw [hc]; exact List.mem_append_left _ hx
        have hxy : x ≠ y := fun h => hy1 (h ▸ hx)
        exact rows_dead_eval (r2 :: rs2) fuel (p + r.enc x) (by simp)
          (by simp at hfuel ⊢; omega)
          (fun r0 h0 => hok r0 (List.mem_cons_of_mem _ h0))
          (rowsLive_tail_ne hlive x (hokr.1 hxcur) hxy)
      -- after the hit the deeper rows are y-erased and dead for every other x
      have hh2 : ∀ ct ∈ l2.map r.enc,
          MultiClient.icountF fuel
              ((r2 :: rs2).map (fun r0 => (r0.cur.erase y).map r0.enc))
              (p + ct)
            = (0, (r2 :: rs2).map (fun r0 => (r0.cur.erase y).map r0.enc)) := by
        intro ct hct
        obtain ⟨x, hx, rfl⟩ := List.mem_map.mp hct
        have hxcur : x ∈ r.cur := by
          rw [hc]; exact List.mem_append_right _ (List.mem_cons_of_mem _ hx)
        have hxy : x ≠ y := fun h => hy2 (h ▸ hx)
        rw [herased]
        exact rows_dead_eval ((r2 :: rs2).map (MCRow.eraseTag y)) fuel
          (p + r.enc x) (by simp) (by simp at hfuel ⊢; omega)
          (rowsOk_eraseTag y (fun r0 h0 => hok r0 (List.mem_cons_of_mem _ h0)))
          (rowsDead_eraseTag y
            (rowsLive_tail_ne hlive x (hokr.1 hxcur) hxy))
      have hERA : ((l1 ++ y :: l2).map r.enc).erase (r.enc y)
          = ((l1 ++ y :: l2).erase y).map r.enc :=
        map_erase_of_injOn r.enc r.dom hokr.2.2 y hyd (l1 ++ y :: l2)
          (hc ▸ hokr.1)
      have hX : MultiClient.icRow (MultiClient.icountF fuel) p
            (r.cur.map r.enc) (r.cur.map r.enc)
            ((r2 :: rs2).map MCRow.state)
          = (1, (r.cur.erase y).map r.enc,
              (r2 :: rs2).map (fun r0 => (r0.cur.erase y).map r0.enc)) := by
        rw [hc, ← hERA,
          show (l1 ++ y :: l2).map r.enc
              = l1.map r.enc ++ r.enc y :: l2.map r.enc from by
            rw [List.map_append, List.map_cons],
          icRow_skip_zero (MultiClient.icountF fuel) p (l1.map r.enc)
            (r.enc y :: l2.map r.enc)
            (l1.map r.enc ++ r.enc y :: l2.map r.enc)
            ((r2 :: rs2).map MCRow.state) hskip]
        exact icRow_hit_zero (MultiClient.icountF fuel) p (r.enc y)
          (l2.map r.enc) (l1.map r.enc ++ r.enc y :: l2.map r.enc)
          ((r2 :: rs2).map MCRow.state)
          ((r2 :: rs2).map (fun r0 => (r0.cur.erase y).map r0.enc)) hhit hh2
      rw [hX]
      rfl

theorem icRow_top_count {q : ℕ} (e : Bytes → ZMod q) (p : ZMod q) :
    ∀ (l : List Bytes) (fuel : ℕ) (rs : List (MCRow q))
      (cset : List (ZMod q)),
      l.Nodup → rs ≠ [] → rs.length ≤ fuel → (∀ r ∈ rs, r.Ok) →
      (∀ x ∈ l, ∀ r ∈ rs, (x ∈ r.cur ↔ x ∈ r.dom)) →
      (∀ x ∈ l, (∀ r ∈ rs, x ∈ r.dom) → RowsLive (p + e x) x rs) →
      (∀ x ∈ l, (¬ ∀ r ∈ rs, x ∈ r.dom) → RowsDead (p + e x) rs) →
      (MultiClient.icRow (MultiClient.icountF fuel) p (l.map e) cset
          (rs.map MCRow.state)).1
        = l.countP (fun x => rs.all (fun r => decide (x ∈ r.dom))) := by
  intro l
  induction l with
  | nil => intro fuel rs cset _ _ _ _ _ _ _; rfl
  | cons x l ih =>
    intro fuel rs cset hnd hne hfuel hok hcd hlv hdd
    have hxl : x ∉ l := (List.nodup_cons.mp hnd).1
    have hnd' := (List.nodup_cons.mp hnd).2
    by_cases hx : ∀ r ∈ rs, x ∈ r.dom
    · -- the search finds x: the deeper rows lose their x entry
      have hxc : ∀ r ∈ rs, x ∈ r.cur := fun r hr =>
        (hcd x (List.mem_cons_self _ _) r hr).mpr (hx r hr)
      have hhit := rows_live_eval_mem rs fuel (p + e x) x hne hfuel hok hx
        (hlv x (List.mem_cons_self _ _) hx) hxc
      rw [List.map_cons, icRow_cons, hhit]
      simp only [reduceIte]
      show (MultiClient.icRow (MultiClient.icountF fuel) p (l.map e)
          (cset.erase (e x))
          (rs.map (fun r => (r.cur.erase x).map r.enc))).1 + 1
        = (x :: l).countP (fun z => rs.all (fun r => decide (z ∈ r.dom)))
      have herased : rs.map (fun r => (r.cur.erase x).map r.enc)
          = (rs.map (MCRow.eraseTag x)).map MCRow.state :=
        (List.map_map MCRow.state (MCRow.eraseTag x) rs).symm
      have hne' : rs.map (MCRow.eraseTag x) ≠ [] := by simpa using hne
      have hfuel' : (rs.map (MCRow.eraseTag x)).length ≤ fuel := by
        simpa using hfuel
      have hok' := rowsOk_eraseTag x hok
      have hcd' : ∀ z ∈ l, ∀ r0 ∈ rs.map (MCRow.eraseTag x),
          (z ∈ r0.cur ↔ z ∈ r0.dom) := by
        intro z hz r0 hr0
        obtain ⟨r1, hr1, rfl⟩ := List.mem_map.mp hr0
        have hzx : z ≠ x := fun h => hxl (h ▸ hz)
        exact (List.mem_erase_of_ne hzx).trans
          (hcd z (List.mem_cons_of_mem _ hz) r1 hr1)
      have hlv' : ∀ z ∈ l, (∀ r0 ∈ rs.map (MCRow.eraseTag x), z ∈ r0.dom) →
          RowsLive (p + e z) z (rs.map (MCRow.eraseTag x)) := by
        intro z hz hdoms
        refine rowsLive_eraseTag x (hlv z (List.mem_cons_of_mem _ hz) ?_)
        intro r1 hr1
        exact hdoms (MCRow.eraseTag x r1) (List.mem_map_of_mem _ hr1)
      have hdd' : ∀ z ∈ l, (¬ ∀ r0 ∈ rs.map (MCRow.eraseTag x), z ∈ r0.dom) →
          RowsDead (p + e z) (rs.map (MCRow.eraseTag x)) := by
        intro z hz hnot
        refine rowsDead_eraseTag x (hdd z (List.mem_cons_of_mem _ hz) ?_)
        intro hallr
        refine hnot ?_
        intro r0 hr0
        obtain ⟨r1, hr1, rfl⟩ := List.mem_map.mp hr0
        exact hallr r1 hr1
      rw [herased,
        ih fuel (rs.map (MCRow.eraseTag x)) (cset.erase (e x)) hnd' hne'
          hfuel' hok' hcd' hlv' hdd',
        countP_all_eraseTag, List.countP_cons]
      have hxall : (rs.all fun r0 => decide (x ∈ r0.dom)) = true := by
        simp only [List.all_eq_true, decide_eq_true_eq]
        exact hx
      simp [hxall]
    · -- x is not in every set: the deeper search is dead
      have h0 := rows_dead_eval rs fuel (p + e x) hne hfuel hok
        (hdd x (List.mem_cons_self _ _) hx)
      rw [List.map_cons, icRow_cons, h0]
      simp only [reduceIte]
      show (MultiClient.icRow (MultiClient.icountF fuel) p (l.map e) cset
          (rs.map MCRow.state)).1
        = (x :: l).countP (fun z => rs.all (fun r => decide (z ∈ r.dom)))
      rw [ih fuel rs cset hnd' hne hfuel hok
          (fun z hz => hcd z (List.mem_cons_of_mem _ hz))
          (fun z hz => hlv z (List.mem_cons_of_mem _ hz))
          (fun z hz => hdd z (List.mem_cons_of_mem _ hz)),
        List.countP_cons]
      have hxall : (rs.all fun r0 => decide (x ∈ r0.dom)) = false := by
        rw [Bool.eq_false_iff]
        simp only [ne_eq, List.all_eq_true, decide_eq_true_eq]
        exact hx
      simp [hxall]

theorem rows_count_eval {q : ℕ} (r : MCRow q) (rs' : List (MCRow q))
    (hne : rs' ≠ [])
    (hok : ∀ r0 ∈ r :: rs', r0.Ok)
    (hcur : ∀ r0 ∈ r :: rs', r0.cur = r0.dom)
    (hzero : ∀ y : Bytes, ((r :: rs').map (fun r0 => r0.enc y)).sum = 0)
    (hgenR : ∀ ts, rowChoices (r :: rs') ts → rowSum (r :: rs') ts = 0 →
      ∀ a ∈ ts, ∀ b ∈ ts, a = b) :
    (MultiClient.icountF (r :: rs').length ((r :: rs').map MCRow.state) 0).1
      = r.dom.countP (fun x => rs'.all (fun r0 => decide (x ∈ r0.dom))) := by
  cases rs' with
  | nil => exact absurd rfl hne
  | cons r2 rs2 =>
    rw [show (r :: r2 :: rs2).length = (r2 :: rs2).length + 1 from rfl,
      icountF_step_rows]
    have hokr := hok r (List.mem_cons_self _ _)
    have hdomx : ∀ x ∈ r.cur, x ∈ r.dom := fun x hx => hokr.1 hx
    have hcd : ∀ x ∈ r.cur, ∀ r0 ∈ r2 :: rs2, (x ∈ r0.cur ↔ x ∈ r0.dom) := by
      intro x _ r0 hr0
      rw [hcur r0 (List.mem_cons_of_mem _ hr0)]
    have hlv : ∀ x ∈ r.cur, (∀ r0 ∈ r2 :: rs2, x ∈ r0.dom) →
        RowsLive (0 + r.enc x) x (r2 :: rs2) := by
      intro x hx _
      constructor
      · have h := hzero x
        rw [List.map_cons, List.sum_cons] at h
        rw [zero_add]
        exact h
      · intro ts hts hsum t ht
        have hsum2 : rowSum (r :: r2 :: rs2) (x :: ts) = 0 := by
          unfold rowSum at hsum ⊢
          rw [List.zipWith_cons_cons, List.sum_cons]
          rw [zero_add] at hsum
          exact hsum
        have hall := hgenR (x :: ts)
          (List.Forall₂.cons (hdomx x hx) hts) hsum2
        exact hall t (List.mem_cons_of_mem _ ht) x (List.mem_cons_self _ _)
    have hdd : ∀ x ∈ r.cur, (¬ ∀ r0 ∈ r2 :: rs2, x ∈ r0.dom) →
        RowsDead (0 + r.enc x) (r2 :: rs2) := by
      intro x hx hnot ts hts hsum
      refine hnot ?_
      have hsum2 : rowSum (r :: r2 :: rs2) (x :: ts) = 0 := by
        unfold rowSum at hsum ⊢
        rw [List.zipWith_cons_cons, List.sum_cons]
        rw [zero_add] at hsum
        exact hsum
      have hall := hgenR (x :: ts)
        (List.Forall₂.cons (hdomx x hx) hts) hsum2
      exact rowChoices_const (r2 :: rs2) ts x hts
        (fun t ht => hall t (List.mem_cons_of_mem _ ht) x
          (List.mem_cons_self _ _))
    show (MultiClient.icRow (MultiClient.icountF (r2 :: rs2).length) 0
        (r.cur.map r.enc) (r.cur.map r.enc)
        ((r2 :: rs2).map MCRow.state)).1
      = r.dom.countP (fun x => (r2 :: rs2).all (fun r0 => decide (x ∈ r0.dom)))
    rw [icRow_top_count r.enc 0 r.cur ((r2 :: rs2).length) (r2 :: rs2)
        (r.cur.map r.enc) hokr.2.1 (by simp) (le_refl _)
        (fun r0 h0 => hok r0 (List.mem_cons_of_mem _ h0)) hcd hlv hdd,
      hcur r (List.mem_cons_self _ _)]

theorem sum_zipWith_reverse {M A B : Type} [AddCommMonoid M] (f : A → B → M) :
    ∀ (l1 : List A) (l2 : List B), l1.length = l2.length →
      (List.zipWith f l1.reverse l2.reverse).sum
        = (List.zipWith f l1 l2).sum := by
  intro l1
  induction l1 with
  | nil =>
    intro l2 h
    cases l2 with
    | nil => rfl
    | cons b l2 => simp at h
  | cons a l1 ih =>
    intro l2 h
    cases l2 with
    | nil => simp at h
    | cons b l2 =>
      have hlen : l1.length = l2.length := by simpa using h
      rw [List.reverse_cons, List.reverse_cons,
        List.zipWith_append f l1.reverse [a] l2.reverse [b]
          (by simp [hlen]),
        List.sum_append, ih l2 hlen, List.zipWith_cons_cons, List.sum_cons]
      simp [add_comm]

theorem zipWith_dedup_eq {q : ℕ} (Hdlog : Bytes → ZMod q) (gid : Bytes) :
    ∀ (usks : List (ZMod q)) (Ss : List (List Bytes)),
      (∀ pr ∈ usks.zip Ss, ∀ a ∈ pr.2, ∀ b ∈ pr.2,
        pr.1 * Hdlog (gid ++ a) = pr.1 * Hdlog (gid ++ b) → a = b) →
      (∀ S ∈ Ss, S.Nodup) →
      List.zipWith (fun u S => MultiClient.Cardinality.encrypt u Hdlog gid S)
          usks Ss
        = (List.zipWith (fun u S =>
            (⟨fun t => u * Hdlog (gid ++ t), S, S⟩ : MCRow q)) usks Ss).map
              MCRow.state := by
  intro usks
  induction usks with
  | nil => intro Ss _ _; rfl
  | cons u usks ih =>
    intro Ss hinj hnd
    cases Ss with
    | nil => rfl
    | cons S Ss =>
      rw [List.zipWith_cons_cons, List.zipWith_cons_cons, List.map_cons]
      congr 1
      · show (S.map (fun t => u * Hdlog (gid ++ t))).dedup
          = S.map (fun t => u * Hdlog (gid ++ t))
        refine List.dedup_eq_self.mpr ?_
        refine List.Nodup.map_on ?_ (hnd S (List.mem_cons_self _ _))
        intro a ha b hb hab
        exact hinj (u, S)
          (by rw [List.zip_cons_cons]; exact List.mem_cons_self _ _)
          a ha b hb hab
      · exact ih Ss
          (fun pr hpr => hinj pr
            (by rw [List.zip_cons_cons]; exact List.mem_cons_of_mem _ hpr))
          (fun T hT => hnd T (List.mem_cons_of_mem _ hT))

theorem zipWith_rows_ok {q : ℕ} (Hdlog : Bytes → ZMod q) (gid : Bytes) :
    ∀ (usks : List (ZMod q)) (Ss : List (List Bytes)),
      (∀ pr ∈ usks.zip Ss, ∀ a ∈ pr.2, ∀ b ∈ pr.2,
        pr.1 * Hdlog (gid ++ a) = pr.1 * Hdlog (gid ++ b) → a = b) →
      (∀ S ∈ Ss, S.Nodup) →
      ∀ r0 ∈ List.zipWith (fun u S =>
          (⟨fun t => u * Hdlog (gid ++ t), S, S⟩ : MCRow q)) usks Ss,
        r0.Ok ∧ r0.cur = r0.dom := by
  intro usks
  induction usks with
  | nil => intro Ss _ _ r0 h0; exact absurd h0 (List.not_mem_nil r0)
  | cons u usks ih =>
    intro Ss hinj hnd r0 h0
    cases Ss with
    | nil => exact absurd h0 (List.not_mem_nil r0)
    | cons S Ss =>
      rw [List.zipWith_cons_cons] at h0
      rcases List.mem_cons.mp h0 with rfl | h0'
      · refine ⟨⟨List.Subset.refl _, hnd S (List.mem_cons_self _ _), ?_⟩, rfl⟩
        intro a ha b hb hab
        exact hinj (u, S)
          (by rw [List.zip_cons_cons]; exact List.mem_cons_self _ _)
          a ha b hb hab
      · exact ih Ss
          (fun pr hpr => hinj pr
            (by rw [List.zip_cons_cons]; exact List.mem_cons_of_mem _ hpr))
          (fun T hT => hnd T (List.mem_cons_of_mem _ hT)) r0 h0'

theorem zipWith_rows_dom {q : ℕ} (Hdlog : Bytes → ZMod q) (gid : Bytes) :
    ∀ (usks : List (ZMod q)) (Ss : List (List Bytes)),
      usks.length = Ss.length →
      (List.zipWith (fun u S =>
          (⟨fun t => u * Hdlog (gid ++ t), S, S⟩ : MCRow q)) usks Ss).map
            MCRow.dom = Ss := by
  intro usks
  induction usks with
  | nil =>
    intro Ss h
    cases Ss with
    | nil => rfl
    | cons S Ss => simp at h
  | cons u usks ih =>
    intro Ss h
    cases Ss with
    | nil => simp at h
    | cons S Ss =>
      rw [List.zipWith_cons_cons, List.map_cons, ih Ss (by simpa using h)]

theorem zipWith_rows_enc_sum {q : ℕ} (Hdlog : Bytes → ZMod q) (gid : Bytes) :
    ∀ (usks : List (ZMod q)) (Ss : List (List Bytes)),
      usks.length = Ss.length → ∀ y : Bytes,
      ((List.zipWith (fun u S =>
          (⟨fun t => u * Hdlog (gid ++ t), S, S⟩ : MCRow q)) usks Ss).map
            (fun r0 => r0.enc y)).sum = usks.sum * Hdlog (gid ++ y) := by
  intro usks
  induction usks with
  | nil =>
    intro Ss h y
    cases Ss with
    | nil => simp
    | cons S Ss => simp at h
  | cons u usks ih =>
    intro Ss h y
    cases Ss with
    | nil => simp at h
    | cons S Ss =>
      rw [List.zipWith_cons_cons, List.map_cons, List.sum_cons, List.sum_cons,
        ih Ss (by simpa using h) y, add_mul]

theorem rowChoices_zipWith {q : ℕ} (Hdlog : Bytes → ZMod q) (gid : Bytes) :
    ∀ (usks : List (ZMod q)) (Ss : List (List Bytes)) (ts : List Bytes),
      usks.length = Ss.length →
      (rowChoices (List.zipWith (fun u S =>
          (⟨fun t => u * Hdlog (gid ++ t), S, S⟩ : MCRow q)) usks Ss) ts
        ↔ List.Forall₂ (fun t S => t ∈ S) ts Ss) := by
  intro usks
  induction usks with
  | nil =>
    intro Ss ts h
    cases Ss with
    | nil => simp [rowChoices, List.forall₂_nil_right_iff]
    | cons S Ss => simp at h
  | cons u usks ih =>
    intro Ss ts h
    cases Ss with
    | nil => simp at h
    | cons S Ss =>
      have hlen : usks.length = Ss.length := by simpa using h
      rw [List.zipWith_cons_cons]
      unfold rowChoices at *
      constructor
      · intro hf
        cases hf with
        | cons h1 h2 => exact List.Forall₂.cons h1 ((ih Ss _ hlen).mp h2)
      · intro hf
        cases hf with
        | cons h1 h2 => exact List.Forall₂.cons h1 ((ih Ss _ hlen).mpr h2)

theorem rowSum_zipWith {q : ℕ} (Hdlog : Bytes → ZMod q) (gid : Bytes) :
    ∀ (ts : List Bytes) (usks : List (ZMod q)) (Ss : List (List Bytes)),
      usks.length = Ss.length →
      rowSum (List.zipWith (fun u S =>
          (⟨fun t => u * Hdlog (gid ++ t), S, S⟩ : MCRow q)) usks Ss) ts
        = (List.zipWith (fun t u => u * Hdlog (gid ++ t)) ts usks).sum := by
  intro ts
  induction ts with
  | nil => intro usks Ss h; rfl
  | cons t ts ih =>
    intro usks Ss h
    cases usks with
    | nil =>
      cases Ss with
      | nil => rfl
      | cons S Ss => exact absurd h (by simp)
    | cons u usks =>
      cases Ss with
      | nil => simp at h
      | cons S Ss =>
        have hlen : usks.length = Ss.length := by simpa using h
        have htail := ih usks Ss hlen
        unfold rowSum at htail ⊢
        simp only [List.zipWith_cons_cons, List.sum_cons]
        rw [htail]

/-- C1 (amended): MultiClient-Cardinality end-to-end correctness holds for
client counts n ≥ 2.  With user keys summing to 0 in ℤ_q (the setup
invariant), duplicate-free plaintext sets, a hash-to-point whose discrete
logarithms make each client's encryption injective on its set, and no
accidental multiplicative relations among the hashes (every choice of one
element per set whose masked product collapses to the identity is the
all-equal choice), eval of the ciphertext sets returns exactly
|S_1 ∩ ... ∩ S_n|.  The n = 1 case of the original claim is false, see the
counterexample. -/
theorem mc_cardinality_correct {q : ℕ} (Hdlog : Bytes → ZMod q) (gid : Bytes)
    (usks : List (ZMod q)) (Ss : List (List Bytes))
    (hlen : usks.length = Ss.length) (hn : 2 ≤ Ss.length)
    (hsum : usks.sum = 0)
    (hnd : ∀ S ∈ Ss, S.Nodup)
    (hinj : ∀ pr ∈ usks.zip Ss, ∀ a ∈ pr.2, ∀ b ∈ pr.2,
      pr.1 * Hdlog (gid ++ a) = pr.1 * Hdlog (gid ++ b) → a = b)
    (hgen : ∀ ts, List.Forall₂ (fun t S => t ∈ S) ts Ss →
      (List.zipWith (fun t u => u * Hdlog (gid ++ t)) ts usks).sum = 0 →
      ∀ a ∈ ts, ∀ b ∈ ts, a = b) :
    MultiClient.Cardinality.eval
        (List.zipWith
          (fun u S => MultiClient.Cardinality.encrypt u Hdlog gid S) usks Ss)
      = listInterCard Ss := by
  obtain ⟨S0, Ss1, rfl⟩ : ∃ S0 Ss1, Ss = S0 :: Ss1 := by
    cases Ss with
    | nil => simp at hn
    | cons a l => exact ⟨a, l, rfl⟩
  have hrows := zipWith_dedup_eq Hdlog gid usks (S0 :: Ss1) hinj hnd
  unfold MultiClient.Cardinality.eval
  rw [hrows]
  set rows0 := List.zipWith (fun u S =>
      (⟨fun t => u * Hdlog (gid ++ t), S, S⟩ : MCRow q)) usks (S0 :: Ss1)
    with hrows0
  have hlrows : rows0.length = (S0 :: Ss1).length := by
    rw [hrows0, List.length_zipWith, hlen, Nat.min_self]
  rw [List.length_map, ← List.map_reverse]
  obtain ⟨r, rs', hrr⟩ : ∃ r rs', rows0.reverse = r :: rs' := by
    cases hR : rows0.reverse with
    | nil =>
      exfalso
      have h0 : rows0.length = 0 := by
        rw [← List.length_reverse, hR]; rfl
      rw [hlrows] at h0
      simp at h0
    | cons a l => exact ⟨a, l, rfl⟩
  have hflen : rows0.length = (r :: rs').length := by
    rw [← hrr, List.length_reverse]
  rw [hflen, hrr]
  have hne' : rs' ≠ [] := by
    intro hnil
    have h1 : (S0 :: Ss1).length = (r :: rs').length := by
      rw [← hlrows, hflen]
    rw [hnil] at h1
    simp only [List.length_cons, List.length_nil] at h1 hn
    omega
  have hmem0 : ∀ r0 ∈ r :: rs', r0.Ok ∧ r0.cur = r0.dom := by
    intro r0 h0
    have hm : r0 ∈ rows0 := List.mem_reverse.mp (by rw [hrr]; exact h0)
    rw [hrows0] at hm
    exact zipWith_rows_ok Hdlog gid usks (S0 :: Ss1) hinj hnd r0 hm
  have hdoms : (r :: rs').map MCRow.dom = (S0 :: Ss1).reverse := by
    rw [← hrr, List.map_reverse, hrows0,
      zipWith_rows_dom Hdlog gid usks (S0 :: Ss1) hlen]
  have hzero' : ∀ y : Bytes, ((r :: rs').map (fun r0 => r0.enc y)).sum = 0 := by
    intro y
    rw [← hrr, List.map_reverse, List.sum_reverse, hrows0,
      zipWith_rows_enc_sum Hdlog gid usks (S0 :: Ss1) hlen y, hsum, zero_mul]
  have hgenR : ∀ ts, rowChoices (r :: rs') ts → rowSum (r :: rs') ts = 0 →
      ∀ a ∈ ts, ∀ b ∈ ts, a = b := by
    intro ts hts hsum0
    rw [← hrr] at hts hsum0
    have hlen2 : ts.length = rows0.reverse.length := List.Forall₂.length_eq hts
    have hts' : rowChoices rows0 ts.reverse := by
      unfold rowChoices at hts ⊢
      refine (List.forall₂_reverse_iff).mp ?_
      rw [List.reverse_reverse]
      exact hts
    have hsumR : rowSum rows0 ts.reverse = 0 := by
      unfold rowSum at hsum0 ⊢
      rw [← hsum0]
      have hswap := sum_zipWith_reverse (fun t (r0 : MCRow q) => r0.enc t)
        ts rows0.reverse (by rw [hlen2])
      rw [List.reverse_reverse] at hswap
      exact hswap
    have hts2 : List.Forall₂ (fun t S => t ∈ S) ts.reverse (S0 :: Ss1) := by
      rw [hrows0] at hts'
      exact (rowChoices_zipWith Hdlog gid usks (S0 :: Ss1) ts.reverse
        hlen).mp hts'
    have hsum2 : (List.zipWith (fun t u => u * Hdlog (gid ++ t))
        ts.reverse usks).sum = 0 := by
      rw [hrows0] at hsumR
      rw [← rowSum_zipWith Hdlog gid ts.reverse usks (S0 :: Ss1) hlen]
      exact hsumR
    have hall := hgen ts.reverse hts2 hsum2
    intro a ha b hb
    exact hall a (List.mem_reverse.mpr ha) b (List.mem_reverse.mpr hb)
  rw [rows_count_eval r rs' hne' (fun r0 h0 => (hmem0 r0 h0).1)
    (fun r0 h0 => (hmem0 r0 h0).2) hzero' hgenR]
  -- both counts are the cardinality of the same intersection
  have hrdomSs : r.dom ∈ S0 :: Ss1 := by
    rw [← List.mem_reverse, ← hdoms]
    exact List.mem_map_of_mem _ (List.mem_cons_self _ _)
  have hndr : r.dom.Nodup := hnd r.dom hrdomSs
  have hndS0 : S0.Nodup := hnd S0 (List.mem_cons_self _ _)
  have hpA : ∀ x : Bytes, ((x ∈ r.dom ∧ ∀ r0 ∈ rs', x ∈ r0.dom)
      ↔ (x ∈ S0 ∧ ∀ T ∈ Ss1, x ∈ T)) := by
    intro x
    have hiff : (∀ S ∈ S0 :: Ss1, x ∈ S) ↔ (x ∈ S0 ∧ ∀ T ∈ Ss1, x ∈ T) :=
      List.forall_mem_cons
    constructor
    · intro h
      refine hiff.mp ?_
      intro S hS
      have hS' : S ∈ (r :: rs').map MCRow.dom := by
        rw [hdoms]
        exact List.mem_reverse.mpr hS
      obtain ⟨r0, hr0, rfl⟩ := List.mem_map.mp hS'
      rcases List.mem_cons.mp hr0 with rfl | hmm
      · exact h.1
      · exact h.2 r0 hmm
    · intro h
      have h' := hiff.mpr h
      constructor
      · exact h' r.dom hrdomSs
      · intro r0 h0
        refine h' r0.dom ?_
        rw [← List.mem_reverse, ← hdoms]
        exact List.mem_map_of_mem _ (List.mem_cons_of_mem _ h0)
  rw [show listInterCard (S0 :: Ss1)
      = S0.countP (fun x => Ss1.all (fun T => decide (x ∈ T))) from
    (List.countP_eq_length_filter
      (fun x => Ss1.all (fun T => decide (x ∈ T))) S0).symm]
  have hcount : ∀ (l : List Bytes) (pb : Bytes → Bool), l.Nodup →
      l.countP pb = (l.filter pb).toFinset.card := by
    intro l pb hl
    rw [List.countP_eq_length_filter,
      List.toFinset_card_of_nodup (hl.filter pb)]
  rw [hcount r.dom _ hndr, hcount S0 _ hndS0]
  congr 1
  ext x
  simp only [List.mem_toFinset, List.mem_filter, List.all_eq_true,
    decide_eq_true_eq]
  exact hpA x

/-- C1 counterexample to the original claim at client count n = 1: setup
deterministically returns the single key [0] (the empty random list plus
the negated empty sum), so every ciphertext collapses to the identity
point, and eval returns 1 instead of |S_1| = 2. -/
theorem mc_cardinality_n1_counterexample :
    MultiClient.Cardinality.eval
        (List.zipWith
          (fun u S => MultiClient.Cardinality.encrypt u
            (fun _ => (1 : ZMod 5)) [7] S)
          (MultiClient.Cardinality.setup 5 (fun _ => 1) 1) [[[0], [1]]])
      ≠ listInterCard [[[0], [1]]] := by decide

/-- Witness for the amended C1 theorem at a concrete instance with two
clients over ℤ_5. -/
theorem mc_cardinality_correct_witness :
    MultiClient.Cardinality.eval
        (List.zipWith
          (fun u S => MultiClient.Cardinality.encrypt u
            (fun t => ((t.headD 0 + 1 : ℕ) : ZMod 5)) [] S)
          [(2 : ZMod 5), 3] [[[0]], [[0], [1]]])
      = listInterCard [[[0]], [[0], [1]]] :=
  mc_cardinality_correct (fun t => ((t.headD 0 + 1 : ℕ) : ZMod 5)) []
    [(2 : ZMod 5), 3] [[[0]], [[0], [1]]] (by decide) (by decide) (by decide)
    (by decide) (by decide)
    (by
      intro ts hts hsum0
      rw [List.forall₂_cons_right_iff] at hts
      obtain ⟨t1, ts1, h1, hts1, rfl⟩ := hts
      rw [List.forall₂_cons_right_iff] at hts1
      obtain ⟨t2, ts2, h2, hts2, rfl⟩ := hts1
      rw [List.forall₂_nil_right_iff] at hts2
      subst hts2
      simp only [List.mem_singleton] at h1
      subst h1
      simp only [List.mem_cons, List.mem_singleton, List.not_mem_nil,
        or_false] at h2
      rcases h2 with rfl | rfl
      · decide
      · exact absurd hsum0 (by decide))
